import Mathlib

/-!
Verification development for the iterative remediation engine of
copilot-ci-doctor (src/commands/fix.js, src/commands/watch.js,
src/copilot/contract.js, src/copilot/index.js).

JavaScript strings are modelled as lists of characters (`JStr`); JS numbers
appearing as confidences are modelled as exact rationals (integer arithmetic
in the code stays exact in this range), and run identifiers as naturals.
-/

namespace CiDoctor

/-- Characters of a JavaScript string. -/
abbrev JStr := List Char

/-- The whitespace class used by JavaScript String.prototype.trimEnd
(ASCII part plus NBSP and BOM; the exotic Unicode space separators are
not produced by any caller in this code base). -/
def isJsWhitespace (c : Char) : Bool :=
  c = ' ' || c = '\t' || c = '\n' || c = '\x0b' || c = '\x0c' || c = '\r' ||
  c = ' ' || c = '﻿'

/-- `patchText.replace(/\r/g, "")` from normalizePatch (fix.js line 35). -/
def removeCR (s : JStr) : JStr := s.filter (fun c => c ≠ '\r')

/-- `.trimEnd()` from normalizePatch (fix.js line 35). -/
def jsTrimEnd (s : JStr) : JStr := (s.reverse.dropWhile isJsWhitespace).reverse

/-- `.split("\n")` — JavaScript split semantics: the empty string yields
one empty field, and `n` separators yield `n+1` fields. -/
def splitNL : JStr → List JStr
  | [] => [[]]
  | c :: rest =>
    if c = '\n' then [] :: splitNL rest
    else
      match splitNL rest with
      | [] => [[c]]
      | l :: ls => (c :: l) :: ls

/-- `output.join("\n")` (fix.js line 60). -/
def joinNL : List JStr → JStr
  | [] => []
  | [l] => l
  | l :: l2 :: ls => l ++ '\n' :: joinNL (l2 :: ls)

/-- `s.startsWith(p)` on character lists. -/
def jsStartsWith : JStr → JStr → Bool
  | [], _ => true
  | _, [] => false
  | p :: ps, c :: cs => if c = p then jsStartsWith ps cs else false

/-- Consume a literal from the front of a string, returning the rest;
used to translate the anchored literal pieces of the hunk-header regex. -/
def expectLit : JStr → JStr → Option JStr
  | [], s => some s
  | _, [] => none
  | p :: ps, c :: cs => if c = p then expectLit ps cs else none

/-- Value of a decimal digit character. -/
def digitVal (c : Char) : Nat := c.toNat - 48

/-- The mathematical value denoted by an all-digit string — what the
regex captures of fix.js lines 69-70 denote before any numeric limits.
JavaScript parseInt returns this value correctly rounded to binary64
(exact below 2^53); that rounding is modelled by `roundToDouble` and
`jsParseIntDigits` below. -/
def digitsToNat (ds : JStr) : Nat := ds.foldl (fun acc c => acc * 10 + digitVal c) 0

/--
Matcher for the hunk-header regex of fixHunkHeader (fix.js line 66):

  /^@@ -(\d+),?\d* \+(\d+),?\d* @@(.*)$/

The regex is deterministic (each greedy digit run is followed by a
non-digit literal, so no backtracking alternative can succeed), hence it
is translated as a sequential maximal-munch parser.  `(.*)$` cannot cross
a newline in JavaScript, hence the final check.  Returns
(oldStart, newStart, trailing).
-/
def matchHunkHeader (line : JStr) : Option (Nat × Nat × JStr) :=
  match expectLit ['@', '@', ' ', '-'] line with
  | none => none
  | some r1 =>
    let d1 := r1.takeWhile Char.isDigit
    let r2 := r1.dropWhile Char.isDigit
    if d1 = [] then none else
    let r3 := match r2 with
      | ',' :: t => t.dropWhile Char.isDigit
      | _ => r2
    match expectLit [' ', '+'] r3 with
    | none => none
    | some r4 =>
      let d2 := r4.takeWhile Char.isDigit
      let r5 := r4.dropWhile Char.isDigit
      if d2 = [] then none else
      let r6 := match r5 with
        | ',' :: t => t.dropWhile Char.isDigit
        | _ => r5
      match expectLit [' ', '@', '@'] r6 with
      | none => none
      | some trailing =>
        if '\n' ∈ trailing then none
        else some (digitsToNat d1, digitsToNat d2, trailing)

/-- Decimal digit character for a value below ten. -/
def digitChar (n : Nat) : Char := Char.ofNat (48 + n)

/-- Full decimal expansion of a natural number, fuel-structured so the
kernel can evaluate it.  JavaScript template interpolation of an
integer-valued Number prints the shortest decimal that rounds back to
it, in exponent form from 1e21 on; that coincides with the full
expansion exactly on the values this development prints — every value
below 2^53 (there the unit in the last place is at most 1, so only the
exact expansion parses back) and the counterexample value 2^53 itself
(its exact expansion has distance zero, which no other shortest
candidate attains). -/
def natToDecAux : Nat → Nat → JStr
  | 0, _ => []
  | fuel + 1, n =>
    if n < 10 then [digitChar n]
    else natToDecAux fuel (n / 10) ++ [digitChar (n % 10)]

def natToDec (n : Nat) : JStr := natToDecAux (n + 1) n

/-- The rewritten header template (fix.js line 90):
`@@ -${oldStart},${oldCount} +${newStart},${newCount} @@${trailing}`. -/
def mkHeader (os oc ns nc : Nat) (tr : JStr) : JStr :=
  '@' :: '@' :: ' ' :: '-' ::
    (natToDec os ++ ',' :: (natToDec oc ++ ' ' :: '+' ::
      (natToDec ns ++ ',' :: (natToDec nc ++ ' ' :: '@' :: '@' :: tr))))

/-- The scan-break test of fixHunkHeader (fix.js line 78): a later hunk
header or a file-header line ends the body of the current hunk. -/
def isBreakLine (l : JStr) : Bool :=
  jsStartsWith ['@', '@'] l || jsStartsWith ['d', 'i', 'f', 'f', ' '] l ||
  jsStartsWith ['-', '-', '-', ' '] l || jsStartsWith ['+', '+', '+', ' '] l

/-- The body scan of fixHunkHeader (fix.js lines 76-88): count removed,
added and context lines until a break line or end of input. -/
def hunkCounts : List JStr → Nat × Nat
  | [] => (0, 0)
  | l :: rest =>
    if isBreakLine l then (0, 0)
    else
      let p := hunkCounts rest
      if jsStartsWith ['-'] l then (p.1 + 1, p.2)
      else if jsStartsWith ['+'] l then (p.1, p.2 + 1)
      else (p.1 + 1, p.2 + 1)

/-- fixHunkHeader (fix.js lines 63-91): parse the header at `hunkIdx`,
recount the body that follows it, and rewrite that single line in place.
A line that does not match the pattern is left untouched. -/
def fixHunkHeader (lines : List JStr) (hunkIdx : Nat) : List JStr :=
  match lines.get? hunkIdx with
  | none => lines
  | some hdr =>
    match matchHunkHeader hdr with
    | none => lines
    | some (os, ns, tr) =>
      let c := hunkCounts (lines.drop (hunkIdx + 1))
      lines.set hunkIdx (mkHeader os c.1 ns c.2 tr)

/-- The scanning loop of normalizePatch (fix.js lines 39-57): push every
line, and whenever a new `@@` line appears, fix the previous pending hunk
header first; the final pending header is fixed after the loop. -/
def normLoop : List JStr → List JStr → Option Nat → List JStr
  | [], output, none => output
  | [], output, some h => fixHunkHeader output h
  | l :: rest, output, hs =>
    if jsStartsWith ['@', '@'] l then
      let out2 := match hs with
        | some h => fixHunkHeader output h
        | none => output
      normLoop rest (out2 ++ [l]) (some out2.length)
    else
      normLoop rest (output ++ [l]) hs

/-- The line decomposition normalizePatch performs on its input
(fix.js line 35). -/
def patchLines (s : String) : List JStr := splitNL (jsTrimEnd (removeCR s.data))

/-- normalizePatch (fix.js lines 31-61): strip carriage returns, trim the
end, split into lines, fix every hunk header, and re-join with exactly one
trailing newline. -/
def normalizePatch (s : String) : String :=
  ⟨joinNL (normLoop (patchLines s) [] none) ++ ['\n']⟩

/-- Pointwise functional form of the normalizer loop: each line that
matches the hunk-header pattern is rewritten using the counts of the body
that follows it; every other line is kept.  Proved equal to `normLoop`
below. -/
def normFun : List JStr → List JStr
  | [] => []
  | l :: rest =>
    (match matchHunkHeader l with
      | some (os, ns, tr) => mkHeader os (hunkCounts rest).1 ns (hunkCounts rest).2 tr
      | none => l) :: normFun rest

/-- The per-header rewrite as a function of the header line and its tail. -/
def fixHeadLine (hdr : JStr) (tail : List JStr) : JStr :=
  match matchHunkHeader hdr with
  | some (os, ns, tr) => mkHeader os (hunkCounts tail).1 ns (hunkCounts tail).2 tr
  | none => hdr

/-! ### JavaScript number precision

parseInt in fixHunkHeader (fix.js lines 69-70) returns a binary64
Number: the mathematical value of the digit string correctly rounded to
53 bits of significand (round to nearest, ties to even).  Starts below
2^53 are exact; larger ones are rounded, so the rewritten header can
carry a different start than the input line. -/

/-- Number of binary digits of `n`, with explicit fuel (`n` itself is
enough fuel, since the value halves each step). -/
def bitLen : Nat → Nat → Nat
  | 0, _ => 0
  | fuel + 1, n => if n = 0 then 0 else bitLen fuel (n / 2) + 1

def natBits (n : Nat) : Nat := bitLen n n

/-- Round a natural number to the nearest binary64 value (ties to even),
returned as the exact integer the double denotes.  Values below 2^53 are
fixed points; the definition covers the range far below the double
overflow threshold, which is all this development evaluates. -/
def roundToDouble (n : Nat) : Nat :=
  if n < 2 ^ 53 then n
  else
    let k := natBits n - 53
    let q := n / 2 ^ k
    let r := n % 2 ^ k
    let half := 2 ^ (k - 1)
    if r < half then q * 2 ^ k
    else if half < r then (q + 1) * 2 ^ k
    else if q % 2 = 0 then q * 2 ^ k else (q + 1) * 2 ^ k

/-- `parseInt(s, 10)` on an all-digit string: the decimal value rounded
to the nearest binary64 (fix.js lines 69-70). -/
def jsParseIntDigits (ds : JStr) : Nat := roundToDouble (digitsToNat ds)

/-- The rewrite fixHunkHeader performs on one matching header line, with
parseInt modelled at double precision: the captured starts are rounded
to the nearest binary64 before being re-printed into the new header
(printing agrees with JavaScript on the values evaluated here, see
natToDecAux). -/
def jsFixHeadLine (hdr : JStr) (tail : List JStr) : JStr :=
  match matchHunkHeader hdr with
  | some (os, ns, tr) =>
    mkHeader (roundToDouble os) (hunkCounts tail).1
      (roundToDouble ns) (hunkCounts tail).2 tr
  | none => hdr


/-! ## Safe-Apply Gate (fix.js fixCommand, lines 146-231) -/

/-- Git working-tree state as the gate observes it: the active branch, the
branch `git checkout -` returns to, the refs that exist, and whether the
worktree holds uncommitted changes. -/
structure GitState where
  activeBranch : String
  prevBranch : String
  branches : List String
  worktreeClean : Bool
  deriving DecidableEq

/-- `git checkout -b name` (fix.js line 208). -/
def gitCheckoutNew (s : GitState) (name : String) : GitState :=
  { activeBranch := name, prevBranch := s.activeBranch,
    branches := name :: s.branches, worktreeClean := s.worktreeClean }

/-- `git checkout -` (fix.js line 218): back to the previously active
branch. -/
def gitCheckoutBack (s : GitState) : GitState :=
  { activeBranch := s.prevBranch, prevBranch := s.activeBranch,
    branches := s.branches, worktreeClean := s.worktreeClean }

/-- `(response.risk || "").toUpperCase()` (fix.js line 147); Char.toUpper
agrees with JavaScript on the ASCII risk words of the contract. -/
def jsToUpper (s : Option String) : String :=
  ⟨(s.getD "").data.map Char.toUpper⟩

inductive GateOutcome
  | rejectedLowConfidence
  | rejectedHighRisk
  | dryRunFailed
  | applyFailed
  | committed
  deriving DecidableEq

/-- Which git-level operations succeed during one gate invocation: the
dry run `git apply --check` and the real `git apply`. -/
structure GateEnv where
  dryRunOk : Bool
  applyOk : Bool
  deriving DecidableEq

/-- The policy gate reached the dry-run check rather than rejecting. -/
def reachedDryRun : GateOutcome → Bool
  | .rejectedLowConfidence => false
  | .rejectedHighRisk => false
  | _ => true

/-- The Safe-Apply Gate portion of fixCommand (fix.js lines 146-231):
policy check on confidence and risk, dry-run validation without mutation,
branch creation, apply with rollback via `git checkout -` on failure,
then stage and commit.  Confidence is the JS number of the response,
modelled as an exact rational. -/
def safeApplyGate (st : GitState) (confidence : Rat) (risk : Option String)
    (env : GateEnv) (branchName : String) : GitState × GateOutcome :=
  if confidence < 60 then (st, .rejectedLowConfidence)
  else if jsToUpper risk = "HIGH" then (st, .rejectedHighRisk)
  else if env.dryRunOk = false then (st, .dryRunFailed)
  else
    let st1 := gitCheckoutNew st branchName
    if env.applyOk = false then (gitCheckoutBack st1, .applyFailed)
    else
      let st2 : GitState := { st1 with worktreeClean := false }
      ({ st2 with worktreeClean := true }, .committed)

/-! ## Oracle response contract (contract.js) -/

def RESPONSE_VERSION : String := "CI_DOCTOR_RESPONSE_V1"

def VALID_MODES : List String := ["hypotheses", "explain", "patch", "combined"]

/-- One entry of response.hypotheses as the validator sees it: `none`
encodes a field that is absent or of the wrong JavaScript type (the
`typeof` and `Array.isArray` checks); numbers are exact rationals. -/
structure JsHyp where
  title : Option String
  confidence : Option Rat
  evidence_refs : Option (List String)
  deriving DecidableEq

/-- The fields of a parsed oracle response that validateResponse reads. -/
structure JsResponse where
  version : Option String
  mode : Option String
  hypotheses : Option (List JsHyp)
  confidence : Option Rat
  summary : Option String
  explanation : Option String
  patch : Option String
  description : Option String
  deriving DecidableEq

/-- The entry loop of validateHypotheses (contract.js lines 114-124):
confidence must be a number in [0, 100], title a truthy string,
evidence_refs an array; the first bad entry throws. -/
def validateHypList : List JsHyp → Except String Unit
  | [] => .ok ()
  | h :: t =>
    match h.confidence with
    | none => .error "Invalid confidence value. Must be 0-100."
    | some q =>
      if q < 0 ∨ q > 100 then .error "Invalid confidence value. Must be 0-100."
      else
        match h.title with
        | none => .error "Each hypothesis must have a title string."
        | some ttl =>
          if ttl = "" then .error "Each hypothesis must have a title string."
          else
            match h.evidence_refs with
            | none => .error "Each hypothesis must have an evidence_refs array."
            | some _ => validateHypList t

/-- validateHypotheses (contract.js lines 110-125). -/
def validateHypotheses (resp : JsResponse) : Except String Unit :=
  match resp.hypotheses with
  | none => .error "Hypotheses response must contain a non-empty hypotheses array."
  | some hs =>
    if hs = [] then .error "Hypotheses response must contain a non-empty hypotheses array."
    else validateHypList hs

/-- validateExplain (contract.js lines 127-137). -/
def validateExplain (resp : JsResponse) : Except String Unit :=
  match resp.confidence with
  | none => .error "Explain response must include a numeric confidence (0-100)."
  | some q =>
    if q < 0 ∨ q > 100 then
      .error "Explain response must include a numeric confidence (0-100)."
    else
      match resp.summary with
      | none => .error "Explain response must include a summary string."
      | some sm =>
        if sm = "" then .error "Explain response must include a summary string."
        else
          match resp.explanation with
          | none => .error "Explain response must include an explanation string."
          | some ex =>
            if ex = "" then .error "Explain response must include an explanation string."
            else .ok ()

/-- validatePatch (contract.js lines 139-149). -/
def validatePatch (resp : JsResponse) : Except String Unit :=
  match resp.confidence with
  | none => .error "Patch response must include a numeric confidence (0-100)."
  | some q =>
    if q < 0 ∨ q > 100 then
      .error "Patch response must include a numeric confidence (0-100)."
    else
      match resp.patch with
      | none => .error "Patch response must include a valid unified diff string."
      | some p =>
        if p = "" then .error "Patch response must include a valid unified diff string."
        else
          match resp.description with
          | none => .error "Patch response must include a description string."
          | some d =>
            if d = "" then .error "Patch response must include a description string."
            else .ok ()

/-- validateResponse (contract.js lines 73-108): version, mode membership,
mode match, then the mode-specific checks (a combined response passes all
three). -/
def validateResponse (resp : JsResponse) (expectedMode : String) : Except String Unit :=
  if resp.version ≠ some RESPONSE_VERSION then
    .error "Invalid response version"
  else
    match resp.mode with
    | none => .error "Invalid response mode"
    | some m =>
      if m ∉ VALID_MODES then .error "Invalid response mode"
      else if m ≠ expectedMode then .error "Response mode mismatch"
      else if expectedMode = "hypotheses" then validateHypotheses resp
      else if expectedMode = "explain" then validateExplain resp
      else if expectedMode = "patch" then validatePatch resp
      else if expectedMode = "combined" then
        match validateHypotheses resp with
        | .error e => .error e
        | .ok _ =>
          match validateExplain resp with
          | .error e => .error e
          | .ok _ => validatePatch resp
      else .ok ()

/-- Steps 4-5 of askCopilot (index.js lines 230-233): a response that
fails contract validation is thrown and never returned to the caller. -/
def askCopilotValidated (parsed : JsResponse) (mode : String) :
    Except String JsResponse :=
  match validateResponse parsed mode with
  | .error e => .error e
  | .ok _ => .ok parsed

/-! ## Run poller (watch.js lines 23-24 and 125-166) -/

def POLL_INTERVAL_MS : Nat := 10000

def POLL_TIMEOUT_MS : Nat := 180000

/-- A run as returned by `gh run list` (watch.js getLatestRun). -/
structure RunH where
  id : Nat
  status : String
  conclusion : String
  workflow : String
  deriving DecidableEq

/-- First phase of waitForNewRunToComplete (watch.js lines 128-145): poll
until a run whose identity differs from previousRunId appears or the
deadline passes.  `latest t` is the getLatestRun answer at clock `t`
(none covers both "no runs" and a failing gh call); each tick sleeps
POLL_INTERVAL_MS before polling.  The fuel argument only bounds the
recursion; pollFuel below always suffices because every tick advances the
clock while the guard requires `now < deadline` (see findNewRun_fuel).
Returns the new run id with the time it was seen, and the final clock. -/
def findNewRun (latest : Nat → Option RunH) (previousRunId : Option Nat) :
    Nat → Nat → Nat → Option (Nat × Nat) × Nat
  | 0, now, _ => (none, now)
  | fuel + 1, now, deadline =>
    if now < deadline then
      match latest (now + POLL_INTERVAL_MS) with
      | some run =>
        if some run.id ≠ previousRunId then
          (some (run.id, now + POLL_INTERVAL_MS), now + POLL_INTERVAL_MS)
        else findNewRun latest previousRunId fuel (now + POLL_INTERVAL_MS) deadline
      | none => findNewRun latest previousRunId fuel (now + POLL_INTERVAL_MS) deadline
    else (none, now)

/-- Second phase (watch.js lines 147-165): poll `gh run view` on the new
run until its status is completed or the fresh deadline passes; a failing
query (the catch) is `none` and the tick is skipped. -/
def awaitRunDone (view : Nat → Nat → Option (String × String)) (runId : Nat) :
    Nat → Nat → Nat → String × Nat
  | 0, now, _ => ("timeout", now)
  | fuel + 1, now, deadline =>
    if now < deadline then
      match view (now + POLL_INTERVAL_MS) runId with
      | some sc =>
        if sc.1 = "completed" then (sc.2, now + POLL_INTERVAL_MS)
        else awaitRunDone view runId fuel (now + POLL_INTERVAL_MS) deadline
      | none => awaitRunDone view runId fuel (now + POLL_INTERVAL_MS) deadline
    else ("timeout", now)

/-- Enough ticks to outlast one deadline window. -/
def pollFuel : Nat := POLL_TIMEOUT_MS / POLL_INTERVAL_MS + 1

/-- waitForNewRunToComplete (watch.js lines 125-166) with an explicit
clock: the result conclusion ("timeout" when a deadline elapses before
the awaited condition) and the final clock value. -/
def waitForNewRunToComplete (latest : Nat → Option RunH)
    (view : Nat → Nat → Option (String × String))
    (previousRunId : Option Nat) (start : Nat) : String × Nat :=
  match findNewRun latest previousRunId pollFuel start (start + POLL_TIMEOUT_MS) with
  | (none, tEnd) => ("timeout", tEnd)
  | (some (newId, tFound), _) =>
    awaitRunDone view newId pollFuel tFound (tFound + POLL_TIMEOUT_MS)

/-! ## Watch controller (watch.js watchCommand, lines 172-386) -/

def MIN_CONFIDENCE : Rat := 80

def MAX_ITERATIONS : Nat := 5

/-- One record of the watch history (the history.push sites of
watchCommand); the half-step `iteration + 0.5` pushed after awaiting the
new run is encoded by `half = true`. -/
structure IterationRecord where
  iteration : Nat
  half : Bool
  outcome : String
  confidence : Option Rat
  deriving DecidableEq

/-- What the external world feeds one iteration of the watch loop: the
`gh run list` answer, the conclusion a waitForRunCompletion call would
produce, the combined oracle response confidence, whether the git-level
steps succeed, and the conclusion of awaiting the run triggered by the
push.  The oracle call itself is assumed to return (a throw would leave
the loop through the outer catch without touching the history). -/
structure IterEnv where
  latest : Option RunH
  waitConclusion : String
  confidence : Rat
  applyCheckOk : Bool
  applyOk : Bool
  pushOk : Bool
  newRunConclusion : String

/-- The diagnose-and-fix part of one iteration of watchCommand
(watch.js lines 211-372), reached when the latest run failed: the
confidence threshold, `git apply --check`, branch plus apply (with
rollback on failure), commit, push, then waiting for the triggered run.
Returns the records appended this iteration and whether the loop
continues. -/
def watchIterFix (env : IterEnv) (i : Nat) : List IterationRecord × Bool :=
  if env.confidence < MIN_CONFIDENCE then
    ([⟨i, false, "low-confidence", some env.confidence⟩], false)
  else if env.applyCheckOk = false then
    ([⟨i, false, "apply-failed", none⟩], false)
  else if env.applyOk = false then
    ([⟨i, false, "apply-failed", none⟩], false)
  else if env.pushOk = false then
    ([⟨i, false, "push-failed", none⟩], false)
  else if env.newRunConclusion = "success" then
    ([⟨i, false, "fix-pushed", some env.confidence⟩, ⟨i, true, "success", none⟩], false)
  else if env.newRunConclusion = "timeout" then
    ([⟨i, false, "fix-pushed", some env.confidence⟩, ⟨i, true, "timeout", none⟩], false)
  else
    ([⟨i, false, "fix-pushed", some env.confidence⟩], true)

/-- The status-check head of one iteration (watch.js lines 188-209)
followed by the fix part: stop on success or poll timeout, fall through
to diagnosis when the pipeline reports a failure. -/
def watchIterBody (env : IterEnv) (i : Nat) : List IterationRecord × Bool :=
  match env.latest with
  | none =>
    if env.waitConclusion = "timeout" then ([], false)
    else if env.waitConclusion = "success" then
      ([⟨i, false, "success", none⟩], false)
    else watchIterFix env i
  | some run =>
    if run.status ≠ "completed" then
      if env.waitConclusion = "timeout" then ([], false)
      else if env.waitConclusion = "success" then
        ([⟨i, false, "success", none⟩], false)
      else watchIterFix env i
    else if run.conclusion = "success" then
      ([⟨i, false, "success", none⟩], false)
    else watchIterFix env i

/-- The while loop of watchCommand (watch.js lines 184-373): `remaining`
counts down `MAX_ITERATIONS - iteration` (the loop guard
`iteration < MAX_ITERATIONS`), `i` is the iteration counter incremented
at the top of each pass.  Returns the final counter and the history. -/
def watchLoop (envs : Nat → IterEnv) :
    Nat → Nat → List IterationRecord → Nat × List IterationRecord
  | 0, i, hist => (i, hist)
  | remaining + 1, i, hist =>
    let step := watchIterBody (envs (i + 1)) (i + 1)
    if step.2 then watchLoop envs remaining (i + 1) (hist ++ step.1)
    else (i + 1, hist ++ step.1)

/-- watchCommand with loop bound `maxIter` (MAX_ITERATIONS in the
source). -/
def watchRun (envs : Nat → IterEnv) (maxIter : Nat) : Nat × List IterationRecord :=
  watchLoop envs maxIter 0 []

/-- The `iteration >= MAX_ITERATIONS` report after the loop (watch.js
lines 375-377). -/
def maxIterationsReached (res : Nat × List IterationRecord) (maxIter : Nat) : Bool :=
  decide (maxIter ≤ res.1)

/-- The terminal classification of printWatchScoreboard (watch.js lines
394-395 and 472-479): "fixed" when the last outcome is success, otherwise
the reason string derived from the last history outcome. -/
def scoreboardReason (hist : List IterationRecord) : String :=
  let lastOutcome := match hist.getLast? with
    | some r => r.outcome
    | none => "unknown"
  if lastOutcome = "success" then "fixed"
  else if lastOutcome = "low-confidence" then "confidence too low"
  else if lastOutcome = "timeout" then "timed out"
  else if lastOutcome = "push-failed" then "push failed"
  else if lastOutcome = "apply-failed" then "patch apply failed"
  else "max iterations reached"

/-- The simulated environment of the convergence property: the pipeline
always reports a completed failed run, the oracle always answers with
confidence 95 (and LOW risk, which the watch fix path never rejects),
every git operation succeeds, and the run triggered by each push fails
again. -/
def alwaysFailEnv : Nat → IterEnv := fun _ =>
  { latest := some { id := 7, status := "completed", conclusion := "failure", workflow := "ci" }
    waitConclusion := "failure"
    confidence := 95
    applyCheckOk := true
    applyOk := true
    pushOk := true
    newRunConclusion := "failure" }

/-- The six-value outcome taxonomy of the specification. -/
def specOutcomes : List String :=
  ["success", "low-confidence", "apply-failed", "push-failed", "timeout", "max-iterations"]

/-- The outcome values the watch loop actually appends to its history. -/
def historyOutcomes : List String :=
  ["success", "low-confidence", "apply-failed", "push-failed", "timeout", "fix-pushed"]


/-- Initial git state used by the concrete gate scenarios. -/
def gitSt0 : GitState := ⟨"main", "main", ["main"], true⟩

/-- The non-integer JavaScript number 42.5 as an exact rational. -/
def halfConf : Rat := ⟨85, 2, by decide, by decide⟩

/-- A hypothesis entry carrying the non-integer confidence 42.5. -/
def nonIntHyp : JsHyp :=
  { title := some "flaky test", confidence := some halfConf, evidence_refs := some [] }

/-- A parsed oracle response whose single hypothesis has confidence 42.5. -/
def nonIntegerResp : JsResponse :=
  { version := some "CI_DOCTOR_RESPONSE_V1", mode := some "hypotheses",
    hypotheses := some [nonIntHyp],
    confidence := none, summary := none, explanation := none,
    patch := none, description := none }

/-- A hypothesis entry with no evidence_refs array. -/
def missingRefsHyp : JsHyp :=
  { title := some "stale cache", confidence := some 90, evidence_refs := none }

/-- A parsed oracle response whose single hypothesis lacks evidence_refs. -/
def missingRefsResp : JsResponse :=
  { version := some "CI_DOCTOR_RESPONSE_V1", mode := some "hypotheses",
    hypotheses := some [missingRefsHyp],
    confidence := none, summary := none, explanation := none,
    patch := none, description := none }

theorem normFun_cons (l : JStr) (rest : List JStr) :
    normFun (l :: rest) = fixHeadLine l rest :: normFun rest := by
  simp [normFun, fixHeadLine]

/-! ### Basic facts about the string primitives -/

theorem expectLit_eq_some {p s r : JStr} : expectLit p s = some r ↔ s = p ++ r := by
  induction p generalizing s with
  | nil => simp [expectLit]
  | cons a p ih =>
    cases s with
    | nil => simp [expectLit]
    | cons c cs =>
      by_cases h : c = a
      · subst h; simp [expectLit, ih]
      · simp [expectLit, h, Ne.symm h]

theorem jsStartsWith_iff {p s : JStr} : jsStartsWith p s = true ↔ ∃ r, s = p ++ r := by
  induction p generalizing s with
  | nil => simp [jsStartsWith]
  | cons a p ih =>
    cases s with
    | nil => simp [jsStartsWith]
    | cons c cs =>
      by_cases h : c = a
      · subst h; simpa [jsStartsWith] using ih
      · simp only [jsStartsWith, if_neg h]
        constructor
        · intro hfalse; cases hfalse
        · rintro ⟨r, hr⟩
          injection hr with h1 h2
          exact absurd h1 h

theorem takeWhile_append_of_all {p : Char → Bool} {xs : JStr} (y : Char) (ys : JStr)
    (hxs : ∀ c ∈ xs, p c = true) (hy : p y = false) :
    (xs ++ y :: ys).takeWhile p = xs := by
  induction xs with
  | nil => simp [List.takeWhile, hy]
  | cons a xs ih =>
    have ha : p a = true := hxs a (by simp)
    simp only [List.cons_append, List.takeWhile_cons, ha, if_true]
    rw [ih (fun c hc => hxs c (by simp [hc]))]

theorem dropWhile_append_of_all {p : Char → Bool} {xs : JStr} (y : Char) (ys : JStr)
    (hxs : ∀ c ∈ xs, p c = true) (hy : p y = false) :
    (xs ++ y :: ys).dropWhile p = y :: ys := by
  induction xs with
  | nil => simp [List.dropWhile, hy]
  | cons a xs ih =>
    have ha : p a = true := hxs a (by simp)
    simp only [List.cons_append, List.dropWhile_cons, ha, if_true]
    exact ih (fun c hc => hxs c (by simp [hc]))

theorem dropWhile_suffix (p : Char → Bool) (l : JStr) : l.dropWhile p <:+ l := by
  induction l with
  | nil => simp
  | cons a l ih =>
    by_cases h : p a
    · simpa [List.dropWhile_cons, h] using ih.trans (List.suffix_cons a l)
    · simp [List.dropWhile_cons, h]

/-! ### Decimal printing round-trips through the digit parser -/

theorem digitVal_digitChar {n : Nat} (h : n < 10) : digitVal (digitChar n) = n := by
  revert h
  revert n
  decide

theorem isDigit_digitChar {n : Nat} (h : n < 10) : (digitChar n).isDigit = true := by
  revert h
  revert n
  decide

theorem natToDecAux_ne_nil (fuel n : Nat) (h : 0 < fuel) : natToDecAux fuel n ≠ [] := by
  cases fuel with
  | zero => omega
  | succ f =>
    by_cases h10 : n < 10 <;> simp [natToDecAux, h10]

theorem mem_natToDecAux_isDigit (fuel n : Nat) :
    ∀ c ∈ natToDecAux fuel n, c.isDigit = true := by
  induction fuel generalizing n with
  | zero => simp [natToDecAux]
  | succ f ih =>
    intro c hc
    by_cases h10 : n < 10
    · simp [natToDecAux, h10] at hc
      subst hc
      exact isDigit_digitChar h10
    · simp [natToDecAux, h10] at hc
      rcases hc with hc | hc
      · exact ih _ c hc
      · subst hc
        exact isDigit_digitChar (Nat.mod_lt _ (by omega))

theorem digitsToNat_append (xs : JStr) (c : Char) :
    digitsToNat (xs ++ [c]) = digitsToNat xs * 10 + digitVal c := by
  simp [digitsToNat, List.foldl_append]

theorem digitsToNat_natToDecAux (fuel n : Nat) (h : n < fuel) :
    digitsToNat (natToDecAux fuel n) = n := by
  induction fuel generalizing n with
  | zero => omega
  | succ f ih =>
    by_cases h10 : n < 10
    · simp [natToDecAux, h10, digitsToNat, digitVal_digitChar h10]
    · have hpos : 0 < n := by omega
      have hdiv : n / 10 < n := Nat.div_lt_self hpos (by omega)
      have hf : n / 10 < f := by omega
      simp only [natToDecAux, h10, if_false, digitsToNat_append]
      rw [ih _ hf, digitVal_digitChar (Nat.mod_lt _ (by omega))]
      omega

theorem natToDec_ne_nil (n : Nat) : natToDec n ≠ [] :=
  natToDecAux_ne_nil _ _ (by omega)

theorem mem_natToDec_isDigit (n : Nat) : ∀ c ∈ natToDec n, c.isDigit = true :=
  mem_natToDecAux_isDigit _ _

theorem digitsToNat_natToDec (n : Nat) : digitsToNat (natToDec n) = n :=
  digitsToNat_natToDecAux _ _ (by omega)

/-! ### The header rewrite round-trips through the matcher -/


theorem matchHunkHeader_mkHeader (os oc ns nc : Nat) (tr : JStr) (htr : '\n' ∉ tr) :
    matchHunkHeader (mkHeader os oc ns nc tr) = some (os, ns, tr) := by
  have hcomma : Char.isDigit ',' = false := by decide
  have hspace : Char.isDigit ' ' = false := by decide
  unfold mkHeader matchHunkHeader
  simp only [expectLit, reduceIte]
  rw [takeWhile_append_of_all ',' _ (mem_natToDec_isDigit os) hcomma,
      dropWhile_append_of_all ',' _ (mem_natToDec_isDigit os) hcomma]
  simp only [natToDec_ne_nil, if_false, reduceIte]
  rw [dropWhile_append_of_all ' ' _ (mem_natToDec_isDigit oc) hspace]
  simp only [expectLit, reduceIte]
  rw [takeWhile_append_of_all ',' _ (mem_natToDec_isDigit ns) hcomma,
      dropWhile_append_of_all ',' _ (mem_natToDec_isDigit ns) hcomma]
  simp only [natToDec_ne_nil, if_false, reduceIte]
  rw [dropWhile_append_of_all ' ' _ (mem_natToDec_isDigit nc) hspace]
  simp only [expectLit, reduceIte]
  simp [htr, digitsToNat_natToDec]

theorem suffix_of_expectLit {p s r : JStr} (h : expectLit p s = some r) : r <:+ s := by
  rw [expectLit_eq_some] at h
  exact ⟨p, h.symm⟩

theorem matchHunkHeader_some_facts {l : JStr} {os ns : Nat} {tr : JStr}
    (h : matchHunkHeader l = some (os, ns, tr)) :
    jsStartsWith ['@', '@'] l = true ∧ '\n' ∉ tr ∧ tr <:+ l := by
  unfold matchHunkHeader at h
  cases he1 : expectLit ['@', '@', ' ', '-'] l with
  | none => simp [he1] at h
  | some r1 =>
  simp only [he1] at h
  have hl : l = ['@', '@', ' ', '-'] ++ r1 := expectLit_eq_some.mp he1
  have hsw : jsStartsWith ['@', '@'] l = true := by
    subst hl; simp [jsStartsWith]
  have hr1 : r1 <:+ l := suffix_of_expectLit he1
  by_cases hd1 : r1.takeWhile Char.isDigit = []
  · simp [hd1] at h
  simp only [hd1, if_false] at h
  set r2 := r1.dropWhile Char.isDigit with hr2def
  have hr2 : r2 <:+ r1 := dropWhile_suffix _ _
  set r3 := (match r2 with | ',' :: t => t.dropWhile Char.isDigit | _ => r2) with hr3def
  have hr3 : r3 <:+ r2 := by
    rw [hr3def]
    match r2 with
    | [] => simp
    | ',' :: t => exact (dropWhile_suffix _ _).trans (List.suffix_cons _ _)
    | c :: t =>
      by_cases hc : c = ','
      · subst hc; exact (dropWhile_suffix _ _).trans (List.suffix_cons _ _)
      · simp [hc]
  cases he2 : expectLit [' ', '+'] r3 with
  | none => simp [he2] at h
  | some r4 =>
  simp only [he2] at h
  have hr4 : r4 <:+ r3 := suffix_of_expectLit he2
  by_cases hd2 : r4.takeWhile Char.isDigit = []
  · simp [hd2] at h
  simp only [hd2, if_false] at h
  set r5 := r4.dropWhile Char.isDigit with hr5def
  have hr5 : r5 <:+ r4 := dropWhile_suffix _ _
  set r6 := (match r5 with | ',' :: t => t.dropWhile Char.isDigit | _ => r5) with hr6def
  have hr6 : r6 <:+ r5 := by
    rw [hr6def]
    match r5 with
    | [] => simp
    | ',' :: t => exact (dropWhile_suffix _ _).trans (List.suffix_cons _ _)
    | c :: t =>
      by_cases hc : c = ','
      · subst hc; exact (dropWhile_suffix _ _).trans (List.suffix_cons _ _)
      · simp [hc]
  cases he3 : expectLit [' ', '@', '@'] r6 with
  | none => simp [he3] at h
  | some trailing =>
  simp only [he3] at h
  have htrs : trailing <:+ r6 := suffix_of_expectLit he3
  by_cases hnl : '\n' ∈ trailing
  · simp [hnl] at h
  simp only [hnl, if_false, Option.some.injEq] at h
  obtain ⟨h1, h2, h3⟩ := h
  exact ⟨hsw, hnl, (((htrs.trans hr6).trans hr5).trans hr4).trans ((hr3.trans hr2).trans hr1)⟩

/-! ### The scanning loop equals the pointwise rewrite -/


theorem get?_append_cons {α : Type} (xs ys : List α) (a : α) :
    (xs ++ a :: ys).get? xs.length = some a := by
  induction xs with
  | nil => rfl
  | cons x xs ih => simpa using ih

theorem drop_append_cons {α : Type} (xs ys : List α) (a : α) :
    (xs ++ a :: ys).drop (xs.length + 1) = ys := by
  induction xs with
  | nil => rfl
  | cons x xs _ => simp

theorem set_append_cons {α : Type} (xs ys : List α) (a b : α) :
    (xs ++ a :: ys).set xs.length b = xs ++ b :: ys := by
  induction xs with
  | nil => rfl
  | cons x xs ih => simp [List.set, ih]

theorem matchHunkHeader_none_of_not_startsWith {l : JStr}
    (h : jsStartsWith ['@', '@'] l = false) : matchHunkHeader l = none := by
  cases hm : matchHunkHeader l with
  | none => rfl
  | some x =>
    obtain ⟨os, ns, tr⟩ := x
    have := (matchHunkHeader_some_facts hm).1
    rw [h] at this
    cases this

theorem isBreakLine_of_startsWith {l : JStr} (h : jsStartsWith ['@', '@'] l = true) :
    isBreakLine l = true := by
  simp [isBreakLine, h]

theorem fixHunkHeader_at_seam (output body : List JStr) (hdr : JStr) :
    fixHunkHeader (output ++ hdr :: body) output.length
      = output ++ fixHeadLine hdr body :: body := by
  unfold fixHunkHeader fixHeadLine
  rw [get?_append_cons]
  cases hm : matchHunkHeader hdr with
  | none => simp [hm]
  | some x =>
    obtain ⟨os, ns, tr⟩ := x
    simp [hm, drop_append_cons, set_append_cons]

theorem hunkCounts_append_break (body : List JStr) {b : JStr}
    (hb : isBreakLine b = true) (r : List JStr) :
    hunkCounts (body ++ b :: r) = hunkCounts body := by
  induction body with
  | nil => simp [hunkCounts, hb]
  | cons a body ih =>
    by_cases ha : isBreakLine a = true
    · simp [hunkCounts, ha]
    · simp only [List.cons_append, hunkCounts, Bool.not_eq_true] at *
      rw [ha]
      simp only [if_false, Bool.false_eq_true, reduceIte]
      rw [show body.append (b :: r) = body ++ b :: r from rfl, ih]

theorem fixHeadLine_congr (hdr : JStr) {t1 t2 : List JStr}
    (h : hunkCounts t1 = hunkCounts t2) : fixHeadLine hdr t1 = fixHeadLine hdr t2 := by
  unfold fixHeadLine
  cases matchHunkHeader hdr with
  | none => rfl
  | some x => obtain ⟨os, ns, tr⟩ := x; rw [h]

theorem normFun_append_no_at (body rest : List JStr)
    (h : ∀ b ∈ body, jsStartsWith ['@', '@'] b = false) :
    normFun (body ++ rest) = body ++ normFun rest := by
  induction body with
  | nil => rfl
  | cons a body ih =>
    have ha := matchHunkHeader_none_of_not_startsWith (h a (by simp))
    simp only [List.cons_append, normFun, ha]
    rw [show body.append rest = body ++ rest from rfl, ih (fun b hb => h b (by simp [hb]))]

theorem normLoop_pending (rest : List JStr) : ∀ (output body : List JStr) (hdr : JStr),
    (∀ b ∈ body, jsStartsWith ['@', '@'] b = false) →
    normLoop rest (output ++ hdr :: body) (some output.length)
      = output ++ fixHeadLine hdr (body ++ rest) :: (body ++ normFun rest) := by
  induction rest with
  | nil =>
    intro output body hdr hbody
    show fixHunkHeader (output ++ hdr :: body) output.length = _
    rw [fixHunkHeader_at_seam]
    simp [normFun]
  | cons l rest ih =>
    intro output body hdr hbody
    by_cases hl : jsStartsWith ['@', '@'] l = true
    · have hbrk : isBreakLine l = true := isBreakLine_of_startsWith hl
      show normLoop (l :: rest) (output ++ hdr :: body) (some output.length) = _
      rw [show normLoop (l :: rest) (output ++ hdr :: body) (some output.length)
            = normLoop rest (fixHunkHeader (output ++ hdr :: body) output.length ++ [l])
                (some (fixHunkHeader (output ++ hdr :: body) output.length).length) from by
        simp [normLoop, hl]]
      rw [fixHunkHeader_at_seam]
      have hlen : (output ++ fixHeadLine hdr body :: body).length
          = (output ++ fixHeadLine hdr body :: body).length := rfl
      rw [show (output ++ fixHeadLine hdr body :: body) ++ [l]
            = (output ++ fixHeadLine hdr body :: body) ++ l :: [] from rfl]
      rw [ih (output ++ fixHeadLine hdr body :: body) [] l (by simp)]
      rw [normFun_cons]
      have hcnt : hunkCounts (body ++ l :: rest) = hunkCounts body :=
        hunkCounts_append_break body hbrk rest
      rw [fixHeadLine_congr hdr hcnt]
      simp
    · have hl2 : jsStartsWith ['@', '@'] l = false := by
        revert hl; cases jsStartsWith ['@', '@'] l <;> simp
      have hml := matchHunkHeader_none_of_not_startsWith hl2
      show normLoop (l :: rest) (output ++ hdr :: body) (some output.length) = _
      rw [show normLoop (l :: rest) (output ++ hdr :: body) (some output.length)
            = normLoop rest ((output ++ hdr :: body) ++ [l]) (some output.length) from by
        simp [normLoop, hl2]]
      rw [show (output ++ hdr :: body) ++ [l] = output ++ hdr :: (body ++ [l]) from by simp]
      rw [ih output (body ++ [l]) hdr (by
        intro b hb
        rcases List.mem_append.mp hb with hb | hb
        · exact hbody b hb
        · simp at hb; subst hb; exact hl2)]
      simp only [normFun, hml, List.append_assoc, List.cons_append, List.nil_append]

theorem normLoop_none (rest : List JStr) : ∀ output : List JStr,
    normLoop rest output none = output ++ normFun rest := by
  induction rest with
  | nil => intro output; simp [normLoop, normFun]

  | cons l rest ih =>
    intro output
    by_cases hl : jsStartsWith ['@', '@'] l = true
    · show normLoop (l :: rest) output none = _
      rw [show normLoop (l :: rest) output none
            = normLoop rest (output ++ [l]) (some output.length) from by simp [normLoop, hl]]
      rw [show output ++ [l] = output ++ l :: [] from rfl]
      rw [normLoop_pending rest output [] l (by simp)]
      rw [normFun_cons]
      simp
    · have hl2 : jsStartsWith ['@', '@'] l = false := by
        revert hl; cases jsStartsWith ['@', '@'] l <;> simp
      have hml := matchHunkHeader_none_of_not_startsWith hl2
      show normLoop (l :: rest) output none = _
      rw [show normLoop (l :: rest) output none
            = normLoop rest (output ++ [l]) none from by simp [normLoop, hl2]]
      rw [ih (output ++ [l])]
      simp [normFun, hml]

theorem normLoop_eq_normFun (lines : List JStr) : normLoop lines [] none = normFun lines := by
  simpa using normLoop_none lines []

/-! ### Pointwise description and idempotence of the rewrite -/


theorem normFun_get? (lines : List JStr) : ∀ (i : Nat) (l : JStr), lines.get? i = some l →
    (normFun lines).get? i = some (fixHeadLine l (lines.drop (i + 1))) := by
  induction lines with
  | nil => intro i l h; cases h
  | cons a t ih =>
    intro i l h
    cases i with
    | zero =>
      injection h with h
      subst h
      rw [normFun_cons]
      rfl
    | succ i =>
      rw [normFun_cons]
      simp only [List.get?_cons_succ] at h ⊢
      rw [ih i l h]
      rfl

theorem isBreakLine_mkHeader (os oc ns nc : Nat) (tr : JStr) :
    isBreakLine (mkHeader os oc ns nc tr) = true := by
  simp [mkHeader, isBreakLine, jsStartsWith]

theorem hunkCounts_normFun (t : List JStr) : hunkCounts (normFun t) = hunkCounts t := by
  induction t with
  | nil => rfl
  | cons a t ih =>
    rw [normFun_cons]
    cases hm : matchHunkHeader a with
    | some x =>
      obtain ⟨os, ns, tr⟩ := x
      have hbrk : isBreakLine a = true :=
        isBreakLine_of_startsWith (matchHunkHeader_some_facts hm).1
      unfold fixHeadLine
      rw [hm]
      simp [hunkCounts, isBreakLine_mkHeader, hbrk]
    | none =>
      unfold fixHeadLine
      rw [hm]
      by_cases hbrk : isBreakLine a = true
      · simp [hunkCounts, hbrk]
      · have hbrk2 : isBreakLine a = false := by
          revert hbrk; cases isBreakLine a <;> simp
        simp [hunkCounts, hbrk2, ih]

theorem normFun_idem (lines : List JStr) : normFun (normFun lines) = normFun lines := by
  induction lines with
  | nil => rfl
  | cons a t ih =>
    rw [normFun_cons, normFun_cons, ih]
    congr 1
    cases hm : matchHunkHeader a with
    | none => unfold fixHeadLine; rw [hm, hm]
    | some x =>
      obtain ⟨os, ns, tr⟩ := x
      have hnl : '\n' ∉ tr := (matchHunkHeader_some_facts hm).2.1
      unfold fixHeadLine
      rw [hm]
      rw [matchHunkHeader_mkHeader os (hunkCounts t).1 ns (hunkCounts t).2 tr hnl]
      rw [hunkCounts_normFun]

/-! ### Splitting and joining on newlines -/


theorem splitNL_ne_nil (s : JStr) : splitNL s ≠ [] := by
  cases s with
  | nil => simp [splitNL]
  | cons c rest =>
    by_cases h : c = '\n'
    · simp [splitNL, h]
    · simp only [splitNL, h, if_false]
      cases splitNL rest <;> simp

theorem mem_splitNL_no_newline (s : JStr) : ∀ l ∈ splitNL s, '\n' ∉ l := by
  induction s with
  | nil => simp [splitNL]
  | cons c rest ih =>
    intro l hl
    by_cases h : c = '\n'
    · simp only [splitNL, h, if_true, reduceIte, List.mem_cons] at hl
      rcases hl with hl | hl
      · simp [hl]
      · exact ih l hl
    · simp only [splitNL, h, if_false, Bool.false_eq_true, reduceIte] at hl
      cases hsp : splitNL rest with
      | nil => exact absurd hsp (splitNL_ne_nil rest)
      | cons l0 ls =>
        rw [hsp] at hl
        rcases List.mem_cons.mp hl with hl | hl
        · subst hl
          intro hmem
          rcases List.mem_cons.mp hmem with hc | hc
          · exact h hc.symm
          · exact ih l0 (by rw [hsp]; simp) hc
        · exact ih l (by rw [hsp]; simp [hl])

theorem mem_splitNL_subset (s : JStr) : ∀ l ∈ splitNL s, ∀ c ∈ l, c ∈ s := by
  induction s with
  | nil => simp [splitNL]
  | cons a rest ih =>
    intro l hl c hc
    by_cases h : a = '\n'
    · simp only [splitNL, h, if_true, reduceIte, List.mem_cons] at hl
      rcases hl with hl | hl
      · subst hl; cases hc
      · exact List.mem_cons_of_mem _ (ih l hl c hc)
    · simp only [splitNL, h, if_false, Bool.false_eq_true, reduceIte] at hl
      cases hsp : splitNL rest with
      | nil => exact absurd hsp (splitNL_ne_nil rest)
      | cons l0 ls =>
        rw [hsp] at hl
        rcases List.mem_cons.mp hl with hl | hl
        · subst hl
          rcases List.mem_cons.mp hc with hc | hc
          · simp [hc]
          · exact List.mem_cons_of_mem _ (ih l0 (by rw [hsp]; simp) c hc)
        · exact List.mem_cons_of_mem _ (ih l (by rw [hsp]; simp [hl]) c hc)

theorem splitNL_no_newline (l : JStr) (h : '\n' ∉ l) : splitNL l = [l] := by
  induction l with
  | nil => rfl
  | cons c rest ih =>
    have hc : c ≠ '\n' := fun hc => h (by simp [hc])
    have hrest : '\n' ∉ rest := fun hm => h (by simp [hm])
    simp only [splitNL, hc, if_false, Bool.false_eq_true, reduceIte, ih hrest]

theorem splitNL_append_newline (l : JStr) (h : '\n' ∉ l) (rest : JStr) :
    splitNL (l ++ '\n' :: rest) = l :: splitNL rest := by
  induction l with
  | nil => simp [splitNL]
  | cons c t ih =>
    have hc : c ≠ '\n' := fun hc => h (by simp [hc])
    have ht : '\n' ∉ t := fun hm => h (by simp [hm])
    simp only [List.cons_append, splitNL, hc, if_false, Bool.false_eq_true, reduceIte]
    rw [show t.append ('\n' :: rest) = t ++ '\n' :: rest from rfl, ih ht]

theorem splitNL_joinNL (ls : List JStr) (h : ls ≠ []) (h2 : ∀ l ∈ ls, '\n' ∉ l) :
    splitNL (joinNL ls) = ls := by
  induction ls with
  | nil => exact absurd rfl h
  | cons l tail ih =>
    cases tail with
    | nil => exact splitNL_no_newline l (h2 l (by simp))
    | cons l2 ls2 =>
      show splitNL (l ++ '\n' :: joinNL (l2 :: ls2)) = _
      rw [splitNL_append_newline l (h2 l (by simp)) _]
      rw [ih (by simp) (fun x hx => h2 x (by simp [hx]))]

/-! ### Trailing-whitespace trimming and last lines -/


theorem dropWhile_head?_false {p : Char → Bool} : ∀ {l : JStr} {c : Char},
    (l.dropWhile p).head? = some c → p c = false := by
  intro l
  induction l with
  | nil => intro c h; cases h
  | cons a t ih =>
    intro c h
    by_cases ha : p a
    · rw [List.dropWhile_cons_of_pos ha] at h
      exact ih h
    · rw [List.dropWhile_cons_of_neg ha] at h
      injection h with h
      subst h
      simpa using ha

theorem dropWhile_eq_self_of_head {p : Char → Bool} {l : JStr}
    (h : ∀ c, l.head? = some c → p c = false) : l.dropWhile p = l := by
  cases l with
  | nil => rfl
  | cons a t =>
    have := h a rfl
    simp [List.dropWhile_cons, this]

theorem jsTrimEnd_getLast? (s : JStr) {c : Char} (h : (jsTrimEnd s).getLast? = some c) :
    isJsWhitespace c = false := by
  unfold jsTrimEnd at h
  rw [List.getLast?_reverse] at h
  exact dropWhile_head?_false h

theorem jsTrimEnd_append_newline (t : JStr)
    (h : ∀ c, t.getLast? = some c → isJsWhitespace c = false) :
    jsTrimEnd (t ++ ['\n']) = t := by
  unfold jsTrimEnd
  rw [List.reverse_append]
  show (('\n' :: t.reverse).dropWhile isJsWhitespace).reverse = t
  rw [List.dropWhile_cons_of_pos (by decide)]
  rw [dropWhile_eq_self_of_head (fun c hc => h c (by rwa [← List.getLast?_reverse, List.reverse_reverse] at hc))]
  exact List.reverse_reverse t

theorem mem_jsTrimEnd_subset {s : JStr} : ∀ c ∈ jsTrimEnd s, c ∈ s := by
  intro c hc
  unfold jsTrimEnd at hc
  rw [List.mem_reverse] at hc
  have := List.dropWhile_sublist (l := s.reverse) (p := isJsWhitespace)
  exact List.mem_reverse.mp (this.mem hc)

theorem getLast?_cons_of_ne_nil {α : Type} (a : α) {l : List α} (h : l ≠ []) :
    (a :: l).getLast? = l.getLast? := by
  cases l with
  | nil => exact absurd rfl h
  | cons b t => exact List.getLast?_cons_cons

theorem splitNL_cons_newline (rest : JStr) : splitNL ('\n' :: rest) = [] :: splitNL rest := by
  simp [splitNL]

theorem splitNL_getLast (t : JStr) : ∀ (c : Char), t.getLast? = some c → c ≠ '\n' →
    ∃ l, (splitNL t).getLast? = some l ∧ l.getLast? = some c := by
  induction t with
  | nil => intro c h; cases h
  | cons a t ih =>
    intro c h hc
    cases t with
    | nil =>
      have h2 : a = c := by simpa using h
      subst h2
      refine ⟨[a], ?_, rfl⟩
      simp [splitNL, hc]
    | cons b t2 =>
      rw [List.getLast?_cons_cons] at h
      obtain ⟨l, hl1, hl2⟩ := ih c h hc
      by_cases ha : a = '\n'
      · subst ha
        refine ⟨l, ?_, hl2⟩
        rw [splitNL_cons_newline, getLast?_cons_of_ne_nil _ (splitNL_ne_nil (b :: t2))]
        exact hl1
      · cases hsp : splitNL (b :: t2) with
        | nil => exact absurd hsp (splitNL_ne_nil _)
        | cons l0 ls =>
          have hstep : splitNL (a :: b :: t2) = (a :: l0) :: ls := by
            rw [show splitNL (a :: b :: t2)
                  = (match splitNL (b :: t2) with | [] => [[a]] | l :: ls => (a :: l) :: ls)
                from by simp [splitNL, ha]]
            rw [hsp]
          rw [hsp] at hl1
          cases ls with
          | nil =>
            have heq : l0 = l := by simpa using hl1
            refine ⟨a :: l0, by rw [hstep]; rfl, ?_⟩
            rw [getLast?_cons_of_ne_nil]
            · rw [heq]; exact hl2
            · intro hnil
              rw [hnil] at heq
              rw [← heq] at hl2
              simp at hl2
          | cons l1 ls2 =>
            refine ⟨l, ?_, hl2⟩
            rw [hstep, List.getLast?_cons_cons]
            rw [List.getLast?_cons_cons] at hl1
            exact hl1

theorem joinNL_getLast (M : List JStr) : ∀ (m : JStr) (c : Char),
    M.getLast? = some m → m.getLast? = some c → (joinNL M).getLast? = some c := by
  induction M with
  | nil => intro m c h; cases h
  | cons m0 M ih =>
    intro m c h hm
    cases M with
    | nil =>
      injection h with h
      subst h
      exact hm
    | cons m1 M2 =>
      rw [List.getLast?_cons_cons] at h
      have hjoin := ih m c h hm
      show (m0 ++ '\n' :: joinNL (m1 :: M2)).getLast? = some c
      rw [List.getLast?_append_cons]
      cases hj : joinNL (m1 :: M2) with
      | nil => rw [hj] at hjoin; cases hjoin
      | cons x xs =>
        rw [hj] at hjoin
        rw [List.getLast?_cons_cons]
        exact hjoin

/-! ### Character classes and line ends through the rewrite -/


theorem not_mem_removeCR (s : JStr) : '\r' ∉ removeCR s := by
  simp [removeCR]

theorem removeCR_eq_self {s : JStr} (h : '\r' ∉ s) : removeCR s = s := by
  rw [removeCR, List.filter_eq_self]
  intro a ha
  simp only [ne_eq, decide_not, Bool.not_eq_true', decide_eq_false_iff_not]
  intro heq
  subst heq
  exact h ha

theorem mem_joinNL (ls : List JStr) : ∀ c ∈ joinNL ls, c = '\n' ∨ ∃ l ∈ ls, c ∈ l := by
  induction ls with
  | nil => simp [joinNL]
  | cons l tail ih =>
    cases tail with
    | nil =>
      intro c hc
      exact Or.inr ⟨l, by simp, hc⟩
    | cons l2 ls2 =>
      intro c hc
      show c = '\n' ∨ _
      rcases List.mem_append.mp hc with hc | hc
      · exact Or.inr ⟨l, by simp, hc⟩
      · rcases List.mem_cons.mp hc with hc | hc
        · exact Or.inl hc
        · rcases ih c hc with hc | ⟨l3, hl3, hc3⟩
          · exact Or.inl hc
          · exact Or.inr ⟨l3, by simp [List.mem_cons.mp hl3], hc3⟩

theorem mem_mkHeader (os oc ns nc : Nat) (tr : JStr) :
    ∀ c ∈ mkHeader os oc ns nc tr,
      c ∈ tr ∨ c.isDigit = true ∨ c ∈ ['@', ' ', '-', '+', ','] := by
  intro c hc
  simp only [mkHeader, List.mem_cons, List.mem_append] at hc
  rcases hc with h|h|h|h|h|h|h|h|h|h|h|h|h|h|h|h
  all_goals first
    | exact Or.inr (Or.inl (mem_natToDec_isDigit _ c h))
    | (subst h; simp)
    | exact Or.inl h

theorem noNL_fixHeadLine {l : JStr} (t : List JStr) (h : '\n' ∉ l) :
    '\n' ∉ fixHeadLine l t := by
  unfold fixHeadLine
  cases hm : matchHunkHeader l with
  | none => exact h
  | some x =>
    obtain ⟨os, ns, tr⟩ := x
    intro hmem
    rcases mem_mkHeader _ _ _ _ _ _ hmem with hx | hx | hx
    · exact (matchHunkHeader_some_facts hm).2.1 hx
    · exact absurd hx (by decide)
    · simp at hx

theorem noCR_fixHeadLine {l : JStr} (t : List JStr) (h : '\r' ∉ l) :
    '\r' ∉ fixHeadLine l t := by
  unfold fixHeadLine
  cases hm : matchHunkHeader l with
  | none => exact h
  | some x =>
    obtain ⟨os, ns, tr⟩ := x
    intro hmem
    rcases mem_mkHeader _ _ _ _ _ _ hmem with hx | hx | hx
    · exact h ((matchHunkHeader_some_facts hm).2.2.subset hx)
    · exact absurd hx (by decide)
    · simp at hx

theorem mem_normFun (lines : List JStr) : ∀ l' ∈ normFun lines,
    ∃ l, l ∈ lines ∧ ∃ t : List JStr, l' = fixHeadLine l t := by
  induction lines with
  | nil => simp [normFun]
  | cons a tail ih =>
    intro l' hl'
    rw [normFun_cons] at hl'
    rcases List.mem_cons.mp hl' with h | h
    · exact ⟨a, by simp, tail, h⟩
    · obtain ⟨l, hl, t, ht⟩ := ih l' h
      exact ⟨l, by simp [hl], t, ht⟩

theorem normFun_ne_nil {lines : List JStr} (h : lines ≠ []) : normFun lines ≠ [] := by
  cases lines with
  | nil => exact absurd rfl h
  | cons a t => rw [normFun_cons]; simp

theorem getLast?_mkHeader (os oc ns nc : Nat) (tr : JStr) :
    (mkHeader os oc ns nc tr).getLast? = if tr = [] then some '@' else tr.getLast? := by
  by_cases htr : tr = []
  · subst htr
    rw [if_pos rfl]
    rw [show mkHeader os oc ns nc []
        = ('@' :: '@' :: ' ' :: '-' :: (natToDec os ++ ',' :: (natToDec oc ++ ' ' :: '+' ::
            (natToDec ns ++ ',' :: (natToDec nc ++ [' ', '@']))))) ++ ['@'] from by simp [mkHeader]]
    exact List.getLast?_concat _
  · rw [if_neg htr]
    rw [show mkHeader os oc ns nc tr
        = ('@' :: '@' :: ' ' :: '-' :: (natToDec os ++ ',' :: (natToDec oc ++ ' ' :: '+' ::
            (natToDec ns ++ ',' :: (natToDec nc ++ [' ', '@', '@']))))) ++ tr from by simp [mkHeader]]
    exact List.getLast?_append_of_ne_nil _ htr

theorem fixHeadLine_getLast {l : JStr} (t : List JStr)
    (h : ∀ c, l.getLast? = some c → isJsWhitespace c = false) :
    ∀ c, (fixHeadLine l t).getLast? = some c → isJsWhitespace c = false := by
  unfold fixHeadLine
  cases hm : matchHunkHeader l with
  | none => exact h
  | some x =>
    obtain ⟨os, ns, tr⟩ := x
    intro c hc
    rw [getLast?_mkHeader] at hc
    by_cases htr : tr = []
    · rw [if_pos htr] at hc
      injection hc with hc
      subst hc
      decide
    · rw [if_neg htr] at hc
      obtain ⟨u, hu⟩ := (matchHunkHeader_some_facts hm).2.2
      have : l.getLast? = tr.getLast? := by
        rw [← hu, List.getLast?_append_of_ne_nil _ htr]
      exact h c (by rw [this]; exact hc)

theorem normFun_getLast? (lines : List JStr) : ∀ l, lines.getLast? = some l →
    (normFun lines).getLast? = some (fixHeadLine l []) := by
  induction lines with
  | nil => intro l h; cases h
  | cons a tail ih =>
    intro l h
    cases tail with
    | nil =>
      have h2 : a = l := by simpa using h
      subst h2
      rfl
    | cons b t2 =>
      rw [List.getLast?_cons_cons] at h
      rw [normFun_cons, getLast?_cons_of_ne_nil _ (normFun_ne_nil (by simp))]
      exact ih l h

/-! ### String-level idempotence of the normalizer -/


theorem matchHunkHeader_nil : matchHunkHeader [] = none := rfl

theorem patchLines_noNL (s : String) : ∀ l ∈ patchLines s, '\n' ∉ l :=
  mem_splitNL_no_newline _

theorem patchLines_noCR (s : String) : ∀ l ∈ patchLines s, '\r' ∉ l := by
  intro l hl hmem
  have h1 := mem_splitNL_subset _ l hl '\r' hmem
  have h2 := mem_jsTrimEnd_subset _ h1
  exact not_mem_removeCR _ h2

theorem patchLines_ne_nil (s : String) : patchLines s ≠ [] := splitNL_ne_nil _

theorem patchLines_normalizePatch (s : String) :
    patchLines (normalizePatch s) = normFun (patchLines s) := by
  have hM_noNL : ∀ l ∈ normFun (patchLines s), '\n' ∉ l := by
    intro l' hl'
    obtain ⟨l, hl, t, ht⟩ := mem_normFun _ l' hl'
    rw [ht]
    exact noNL_fixHeadLine t (patchLines_noNL s l hl)
  have hM_noCR : ∀ l ∈ normFun (patchLines s), '\r' ∉ l := by
    intro l' hl'
    obtain ⟨l, hl, t, ht⟩ := mem_normFun _ l' hl'
    rw [ht]
    exact noCR_fixHeadLine t (patchLines_noCR s l hl)
  have hM_ne : normFun (patchLines s) ≠ [] := normFun_ne_nil (patchLines_ne_nil s)
  have hout : normalizePatch s = ⟨joinNL (normFun (patchLines s)) ++ ['\n']⟩ := by
    rw [normalizePatch, normLoop_eq_normFun]
  have hdata : (normalizePatch s).data = joinNL (normFun (patchLines s)) ++ ['\n'] := by
    rw [hout]
  have hnoCR : '\r' ∉ joinNL (normFun (patchLines s)) ++ ['\n'] := by
    intro hmem
    rcases List.mem_append.mp hmem with hmem | hmem
    · rcases mem_joinNL _ '\r' hmem with h | ⟨l, hl, hc⟩
      · cases h
      · exact hM_noCR l hl hc
    · simp at hmem
  have hgood : ∀ c, (joinNL (normFun (patchLines s))).getLast? = some c →
      isJsWhitespace c = false := by
    intro c hc
    cases ht : jsTrimEnd (removeCR s.data) with
    | nil =>
      have hL : patchLines s = [[]] := by rw [patchLines, ht]; rfl
      have hM : normFun (patchLines s) = [[]] := by
        rw [hL]
        rw [show normFun [[]] = [fixHeadLine [] []] from rfl]
        rw [show fixHeadLine ([] : JStr) [] = [] from by
          unfold fixHeadLine; rw [matchHunkHeader_nil]]
      rw [hM] at hc
      cases hc
    | cons a t =>
      have htne : jsTrimEnd (removeCR s.data) ≠ [] := by rw [ht]; simp
      obtain ⟨cl, hcl⟩ : ∃ cl, (jsTrimEnd (removeCR s.data)).getLast? = some cl := by
        rw [List.getLast?_eq_getLast_of_ne_nil htne]
        exact ⟨_, rfl⟩
      have hclws : isJsWhitespace cl = false := jsTrimEnd_getLast? _ hcl
      have hclnl : cl ≠ '\n' := by
        intro h
        subst h
        exact absurd hclws (by decide)
      obtain ⟨l, hl1, hl2⟩ := splitNL_getLast _ cl hcl hclnl
      have hMlast : (normFun (patchLines s)).getLast? = some (fixHeadLine l []) :=
        normFun_getLast? _ l hl1
      have hlgood : ∀ c2, l.getLast? = some c2 → isJsWhitespace c2 = false := by
        intro c2 hc2
        rw [hl2] at hc2
        injection hc2 with hc2
        subst hc2
        exact hclws
      have hfgood := fixHeadLine_getLast ([] : List JStr) hlgood
      obtain ⟨c3, hc3⟩ : ∃ c3, (fixHeadLine l []).getLast? = some c3 := by
        have hne : fixHeadLine l [] ≠ [] := by
          unfold fixHeadLine
          cases hm : matchHunkHeader l with
          | none =>
            intro hnil
            rw [show l = [] from hnil] at hl2
            cases hl2
          | some x =>
            obtain ⟨os, ns, tr⟩ := x
            intro hnil
            have : mkHeader os (hunkCounts ([] : List JStr)).1 ns
                (hunkCounts ([] : List JStr)).2 tr = [] := hnil
            simp [mkHeader] at this
        rw [List.getLast?_eq_getLast_of_ne_nil hne]
        exact ⟨_, rfl⟩
      have hjoin := joinNL_getLast (normFun (patchLines s)) (fixHeadLine l []) c3 hMlast hc3
      rw [hjoin] at hc
      injection hc with hc
      subst hc
      exact hfgood c3 hc3
  rw [patchLines, hdata, removeCR_eq_self hnoCR, jsTrimEnd_append_newline _ hgood]
  exact splitNL_joinNL _ hM_ne hM_noNL

/-- C6: the diff normalizer is idempotent — for every string d,
normalize(normalize(d)) equals normalize(d). -/
theorem normalizePatch_idem (s : String) :
    normalizePatch (normalizePatch s) = normalizePatch s := by
  rw [show normalizePatch (normalizePatch s)
      = ⟨joinNL (normLoop (patchLines (normalizePatch s)) [] none) ++ ['\n']⟩ from rfl]
  rw [patchLines_normalizePatch, normLoop_eq_normFun, normFun_idem]
  rw [show normalizePatch s = ⟨joinNL (normLoop (patchLines s) [] none) ++ ['\n']⟩ from rfl]
  rw [normLoop_eq_normFun]



/-! ### Contract validation facts -/

theorem validateHypList_cons_ok {h0 : JsHyp} {t : List JsHyp}
    (hok : validateHypList (h0 :: t) = Except.ok ()) :
    ((∃ q : Rat, h0.confidence = some q ∧ 0 ≤ q ∧ q ≤ 100) ∧
      (∃ ttl, h0.title = some ttl ∧ ttl ≠ "") ∧
      (∃ refs, h0.evidence_refs = some refs)) ∧
    validateHypList t = Except.ok () := by
  unfold validateHypList at hok
  split at hok
  · cases hok
  next q hc =>
    split at hok
    · cases hok
    next hq =>
      split at hok
      · cases hok
      next ttl ht =>
        split at hok
        · cases hok
        next httl =>
          split at hok
          · cases hok
          next refs hr =>
            push_neg at hq
            exact ⟨⟨⟨q, hc, hq.1, hq.2⟩, ⟨ttl, ht, httl⟩, ⟨refs, hr⟩⟩, hok⟩

theorem validateHypList_ok {hs : List JsHyp} (hok : validateHypList hs = Except.ok ()) :
    ∀ h ∈ hs, (∃ q : Rat, h.confidence = some q ∧ 0 ≤ q ∧ q ≤ 100) ∧
      (∃ ttl, h.title = some ttl ∧ ttl ≠ "") ∧
      (∃ refs, h.evidence_refs = some refs) := by
  induction hs with
  | nil => simp
  | cons h0 t ih =>
    intro h hmem
    obtain ⟨hhead, htail⟩ := validateHypList_cons_ok hok
    rcases List.mem_cons.mp hmem with hmem | hmem
    · subst hmem; exact hhead
    · exact ih htail h hmem

theorem validateResponse_ok_hypotheses {resp : JsResponse} {m : String}
    (hm : m = "hypotheses" ∨ m = "combined")
    (h : validateResponse resp m = Except.ok ()) :
    ∃ hs, resp.hypotheses = some hs ∧ validateHypList hs = Except.ok () := by
  unfold validateResponse at h
  split at h
  · cases h
  split at h
  · cases h
  next m2 hmode =>
    split at h
    · cases h
    split at h
    · cases h
    have hget : validateHypotheses resp = Except.ok () := by
      rcases hm with hm | hm
      · subst hm
        rw [if_pos rfl] at h
        exact h
      · subst hm
        rw [if_neg (by decide), if_neg (by decide), if_neg (by decide), if_pos rfl] at h
        split at h
        · cases h
        next hh => exact hh
    unfold validateHypotheses at hget
    split at hget
    · cases hget
    next hs hh =>
      split at hget
      · cases hget
      next hnil => exact ⟨hs, hh, hget⟩

/-! ### Claim theorems: Safe-Apply Gate -/

/-- C1: every rejected or failed run of the Safe-Apply Gate leaves the
working tree on its prior branch with its prior contents; in particular,
after an apply failure following branch creation, `git checkout -`
restores the active branch that was current before the call. -/
theorem gate_rollback_preserves_branch (st : GitState) (confidence : Rat)
    (risk : Option String) (env : GateEnv) (branchName : String)
    (h : (safeApplyGate st confidence risk env branchName).2 ≠ GateOutcome.committed) :
    (safeApplyGate st confidence risk env branchName).1.activeBranch = st.activeBranch ∧
    (safeApplyGate st confidence risk env branchName).1.worktreeClean = st.worktreeClean := by
  unfold safeApplyGate at h ⊢
  split_ifs at h ⊢ <;>
    simp_all [gitCheckoutNew, gitCheckoutBack]

/-- Witness for C1: a simulated apply failure after branch creation ends
with the gate back on the original branch. -/
theorem gate_rollback_preserves_branch_w :
    (safeApplyGate gitSt0 95 (some "LOW") ⟨true, false⟩ "ci-fix/20240101-000000").2
        ≠ GateOutcome.committed ∧
    (safeApplyGate gitSt0 95 (some "LOW") ⟨true, false⟩ "ci-fix/20240101-000000").1.activeBranch
        = gitSt0.activeBranch :=
  ⟨by decide,
   (gate_rollback_preserves_branch gitSt0 95 (some "LOW") ⟨true, false⟩
      "ci-fix/20240101-000000" (by decide)).1⟩

/-- C2: the policy gate of fixCommand rejects confidence 59 outright,
lets confidence 60 with a non-HIGH risk proceed to the dry-run check, and
rejects a HIGH risk level at every confidence. -/
theorem gate_policy_boundary :
    (∀ (st : GitState) (risk : Option String) (env : GateEnv) (b : String),
        (safeApplyGate st 59 risk env b).2 = GateOutcome.rejectedLowConfidence ∧
        (safeApplyGate st 59 risk env b).1 = st) ∧
    (∀ (st : GitState) (risk : Option String) (env : GateEnv) (b : String),
        jsToUpper risk ≠ "HIGH" →
        reachedDryRun (safeApplyGate st 60 risk env b).2 = true) ∧
    (∀ (st : GitState) (confidence : Rat) (env : GateEnv) (b : String),
        reachedDryRun (safeApplyGate st confidence (some "HIGH") env b).2 = false ∧
        (safeApplyGate st confidence (some "HIGH") env b).2 ≠ GateOutcome.committed) := by
  refine ⟨?_, ?_, ?_⟩
  · intro st risk env b
    unfold safeApplyGate
    rw [if_pos (by decide)]
    exact ⟨rfl, rfl⟩
  · intro st risk env b hrisk
    unfold safeApplyGate
    rw [if_neg (by decide), if_neg hrisk]
    split_ifs <;> rfl
  · intro st confidence env b
    unfold safeApplyGate
    by_cases hc : confidence < 60
    · rw [if_pos hc]
      exact ⟨rfl, by intro hh; cases hh⟩
    · rw [if_neg hc, if_pos (by decide)]
      exact ⟨rfl, by intro hh; cases hh⟩

/-- Witness for C2 at concrete inputs: 59 rejected, 60 with LOW risk
reaches the dry run, HIGH risk at confidence 95 does not. -/
theorem gate_policy_boundary_w :
    (safeApplyGate gitSt0 59 (some "LOW") ⟨true, true⟩ "b").2
        = GateOutcome.rejectedLowConfidence ∧
    reachedDryRun (safeApplyGate gitSt0 60 (some "LOW") ⟨true, true⟩ "b").2 = true ∧
    reachedDryRun (safeApplyGate gitSt0 95 (some "HIGH") ⟨true, true⟩ "b").2 = false :=
  ⟨(gate_policy_boundary.1 gitSt0 (some "LOW") ⟨true, true⟩ "b").1,
   gate_policy_boundary.2.1 gitSt0 (some "LOW") ⟨true, true⟩ "b" (by decide),
   (gate_policy_boundary.2.2 gitSt0 95 ⟨true, true⟩ "b").1⟩

/-! ### Claim theorems: oracle contract -/

/-- C8: a hypotheses-bearing response in which any entry lacks an
evidence_refs array fails validation as a whole, so askCopilot throws and
the response never reaches the gate or the controller history. -/
theorem oracle_fail_closed_missing_refs (resp : JsResponse) (m : String)
    (hm : m = "hypotheses" ∨ m = "combined") (hs : List JsHyp) (h0 : JsHyp)
    (hhs : resp.hypotheses = some hs) (hmem : h0 ∈ hs)
    (hrefs : h0.evidence_refs = none) :
    (∃ e, validateResponse resp m = Except.error e) ∧
      ∀ r, askCopilotValidated resp m ≠ Except.ok r := by
  have hnotok : validateResponse resp m ≠ Except.ok () := by
    intro hok
    obtain ⟨hs2, hhs2, hlist⟩ := validateResponse_ok_hypotheses hm hok
    rw [hhs] at hhs2
    injection hhs2 with hhs2
    subst hhs2
    obtain ⟨-, -, refs, hr⟩ := validateHypList_ok hlist h0 hmem
    rw [hrefs] at hr
    cases hr
  rcases hv : validateResponse resp m with e | u
  · refine ⟨⟨e, rfl⟩, ?_⟩
    intro r
    unfold askCopilotValidated
    rw [hv]
    simp
  · exact absurd hv hnotok

/-- Witness for C8: the concrete response with a missing evidence_refs
array is rejected. -/
theorem oracle_fail_closed_missing_refs_w :
    ∃ e, validateResponse missingRefsResp "hypotheses" = Except.error e :=
  (oracle_fail_closed_missing_refs missingRefsResp "hypotheses" (Or.inl rfl)
    [missingRefsHyp] missingRefsHyp rfl (by simp) rfl).1

/-- C9 counterexample: the validator accepts a response whose hypothesis
confidence is the non-integer 42.5 (within [0, 100]), because the code
checks `typeof === "number"` and the range only — so the claim that
non-integer confidences are rejected is false. -/
theorem oracle_nonint_confidence_accepted_cex :
    validateResponse nonIntegerResp "hypotheses" = Except.ok () ∧
    nonIntegerResp.hypotheses = some [nonIntHyp] ∧
    nonIntHyp.confidence = some halfConf ∧
    halfConf.den = 2 ∧ 0 ≤ halfConf ∧ halfConf ≤ 100 :=
  ⟨rfl, rfl, rfl, rfl, by decide, by decide⟩

/-- C9 amended: validateResponse accepts a hypotheses-bearing response
only if every entry confidence is a number in [0, 100]; an entry with a
missing, non-numeric or out-of-range confidence rejects the response in
full (integrality is not checked). -/
theorem oracle_confidence_number_range (resp : JsResponse) (m : String)
    (hm : m = "hypotheses" ∨ m = "combined") (hs : List JsHyp)
    (hok : validateResponse resp m = Except.ok ())
    (hhs : resp.hypotheses = some hs) :
    ∀ h ∈ hs, ∃ q : Rat, h.confidence = some q ∧ 0 ≤ q ∧ q ≤ 100 := by
  obtain ⟨hs2, hhs2, hlist⟩ := validateResponse_ok_hypotheses hm hok
  rw [hhs] at hhs2
  injection hhs2 with hhs2
  subst hhs2
  intro h hmem
  exact (validateHypList_ok hlist h hmem).1

/-- Witness for C9: the accepted concrete response indeed carries a
numeric confidence within range. -/
theorem oracle_confidence_number_range_w :
    ∃ q : Rat, nonIntHyp.confidence = some q ∧ 0 ≤ q ∧ q ≤ 100 :=
  oracle_confidence_number_range nonIntegerResp "hypotheses" (Or.inl rfl)
    [nonIntHyp] rfl rfl nonIntHyp (by simp)


/-! ### Watch loop facts -/

theorem watchIterBody_alwaysFail (i : Nat) :
    watchIterBody (alwaysFailEnv i) i
      = ([⟨i, false, "fix-pushed", some 95⟩], true) := rfl

theorem watchLoop_alwaysFail (rem : Nat) : ∀ (i : Nat) (hist : List IterationRecord),
    (watchLoop alwaysFailEnv rem i hist).1 = i + rem ∧
    (watchLoop alwaysFailEnv rem i hist).2.length = hist.length + rem := by
  induction rem with
  | zero => intro i hist; exact ⟨rfl, rfl⟩
  | succ rem ih =>
    intro i hist
    have hstep : watchLoop alwaysFailEnv (rem + 1) i hist
        = watchLoop alwaysFailEnv rem (i + 1)
            (hist ++ [⟨i + 1, false, "fix-pushed", some 95⟩]) := rfl
    rw [hstep]
    obtain ⟨h1, h2⟩ := ih (i + 1) (hist ++ [⟨i + 1, false, "fix-pushed", some 95⟩])
    refine ⟨by omega, ?_⟩
    rw [h2]
    simp
    omega

theorem watchIterFix_outcomes (env : IterEnv) (i : Nat) :
    ∀ r ∈ (watchIterFix env i).1, historyOutcomes.contains r.outcome = true := by
  unfold watchIterFix
  split_ifs <;> intro r hr <;>
    simp only [List.mem_cons, List.mem_singleton, List.not_mem_nil, or_false] at hr <;>
    (rcases hr with rfl | rfl <;> rfl)

theorem watchIterBody_outcomes (env : IterEnv) (i : Nat) :
    ∀ r ∈ (watchIterBody env i).1, historyOutcomes.contains r.outcome = true := by
  have hfix := watchIterFix_outcomes env i
  have hsucc : ∀ r ∈ ([⟨i, false, "success", none⟩] : List IterationRecord),
      historyOutcomes.contains r.outcome = true := by
    intro r hr
    simp only [List.mem_singleton] at hr
    subst hr
    rfl
  have hwait : ∀ r ∈ (if env.waitConclusion = "timeout" then
        (([], false) : List IterationRecord × Bool)
      else if env.waitConclusion = "success" then ([⟨i, false, "success", none⟩], false)
      else watchIterFix env i).1,
      historyOutcomes.contains r.outcome = true := by
    by_cases h1 : env.waitConclusion = "timeout"
    · rw [if_pos h1]
      intro r hr
      exact absurd hr (List.not_mem_nil r)
    rw [if_neg h1]
    by_cases h2 : env.waitConclusion = "success"
    · rw [if_pos h2]
      exact hsucc
    · rw [if_neg h2]
      exact hfix
  rcases hl : env.latest with - | run
  · have hred : watchIterBody env i
        = (if env.waitConclusion = "timeout" then ([], false)
           else if env.waitConclusion = "success" then ([⟨i, false, "success", none⟩], false)
           else watchIterFix env i) := by
      unfold watchIterBody
      rw [hl]
    rw [hred]
    exact hwait
  · have hred : watchIterBody env i
        = (if run.status ≠ "completed" then
            (if env.waitConclusion = "timeout" then ([], false)
             else if env.waitConclusion = "success" then ([⟨i, false, "success", none⟩], false)
             else watchIterFix env i)
          else if run.conclusion = "success" then ([⟨i, false, "success", none⟩], false)
          else watchIterFix env i) := by
      unfold watchIterBody
      rw [hl]
    rw [hred]
    by_cases h0 : run.status ≠ "completed"
    · rw [if_pos h0]
      exact hwait
    · rw [if_neg h0]
      by_cases h3 : run.conclusion = "success"
      · rw [if_pos h3]
        exact hsucc
      · rw [if_neg h3]
        exact hfix

theorem watchLoop_outcomes (envs : Nat → IterEnv) (rem : Nat) :
    ∀ (i : Nat) (hist : List IterationRecord),
    (∀ r ∈ hist, historyOutcomes.contains r.outcome = true) →
    ∀ r ∈ (watchLoop envs rem i hist).2, historyOutcomes.contains r.outcome = true := by
  induction rem with
  | zero => intro i hist hh; exact hh
  | succ rem ih =>
    intro i hist hh
    have hcomb : ∀ r ∈ hist ++ (watchIterBody (envs (i + 1)) (i + 1)).1,
        historyOutcomes.contains r.outcome = true := by
      intro r hr
      rcases List.mem_append.mp hr with hr | hr
      · exact hh r hr
      · exact watchIterBody_outcomes _ _ r hr
    have hstep : watchLoop envs (rem + 1) i hist
        = (if (watchIterBody (envs (i + 1)) (i + 1)).2 = true
            then watchLoop envs rem (i + 1) (hist ++ (watchIterBody (envs (i + 1)) (i + 1)).1)
            else (i + 1, hist ++ (watchIterBody (envs (i + 1)) (i + 1)).1)) := rfl
    rw [hstep]
    by_cases hcont : (watchIterBody (envs (i + 1)) (i + 1)).2 = true
    · rw [if_pos hcont]
      exact ih (i + 1) _ hcomb
    · rw [if_neg hcont]
      exact hcomb

/-! ### Claim theorems: watch controller -/

/-- C3: with an oracle always answering confidence 95 (LOW risk) and a
pipeline that always reports failure while applies and pushes succeed,
the watch loop executes exactly the configured maximum number of
iterations — MAX_ITERATIONS = 5 by default — then stops with the
max-iterations outcome; it neither stops earlier nor begins a sixth
iteration. -/
theorem watch_max_iterations_termination :
    (∀ m : Nat, (watchRun alwaysFailEnv m).1 = m ∧
        (watchRun alwaysFailEnv m).2.length = m) ∧
    (watchRun alwaysFailEnv MAX_ITERATIONS).1 = 5 ∧
    (watchRun alwaysFailEnv MAX_ITERATIONS).2.map (fun r => r.outcome)
      = ["fix-pushed", "fix-pushed", "fix-pushed", "fix-pushed", "fix-pushed"] ∧
    maxIterationsReached (watchRun alwaysFailEnv MAX_ITERATIONS) MAX_ITERATIONS = true ∧
    scoreboardReason (watchRun alwaysFailEnv MAX_ITERATIONS).2
      = "max iterations reached" := by
  refine ⟨?_, by rfl, by rfl, by rfl, by rfl⟩
  intro m
  have h := watchLoop_alwaysFail m 0 []
  simpa [watchRun] using h

/-- C4 counterexample: the watch loop appends records whose outcome
"fix-pushed" lies outside the six-value taxonomy of the claim, and it
never appends a "max-iterations" record. -/
theorem watch_history_outcome_cex :
    (∃ r ∈ (watchRun alwaysFailEnv MAX_ITERATIONS).2,
        specOutcomes.contains r.outcome = false) ∧
    ∀ r ∈ (watchRun alwaysFailEnv MAX_ITERATIONS).2,
        r.outcome ≠ "max-iterations" := by
  decide

/-- C4 amended: every record the watch loop appends to its history has an
outcome drawn from success, low-confidence, apply-failed, push-failed,
timeout, fix-pushed; max-iterations never appears as a history outcome
(it is only the final scoreboard reason). -/
theorem watch_history_outcome_taxonomy (envs : Nat → IterEnv) (maxIter : Nat) :
    ((watchRun envs maxIter).2.all fun r => historyOutcomes.contains r.outcome) = true := by
  rw [List.all_eq_true]
  intro r hr
  exact watchLoop_outcomes envs maxIter 0 [] (by simp) r hr


/-! ### Run poller facts -/

theorem findNewRun_succ (latest : Nat → Option RunH) (prev : Option Nat)
    (fuel now deadline : Nat) :
    findNewRun latest prev (fuel + 1) now deadline
      = if now < deadline then
          match latest (now + POLL_INTERVAL_MS) with
          | some run =>
            if some run.id ≠ prev then
              (some (run.id, now + POLL_INTERVAL_MS), now + POLL_INTERVAL_MS)
            else findNewRun latest prev fuel (now + POLL_INTERVAL_MS) deadline
          | none => findNewRun latest prev fuel (now + POLL_INTERVAL_MS) deadline
        else (none, now) := rfl

theorem awaitRunDone_succ (view : Nat → Nat → Option (String × String))
    (runId fuel now deadline : Nat) :
    awaitRunDone view runId (fuel + 1) now deadline
      = if now < deadline then
          match view (now + POLL_INTERVAL_MS) runId with
          | some sc =>
            if sc.1 = "completed" then (sc.2, now + POLL_INTERVAL_MS)
            else awaitRunDone view runId fuel (now + POLL_INTERVAL_MS) deadline
          | none => awaitRunDone view runId fuel (now + POLL_INTERVAL_MS) deadline
        else ("timeout", now) := rfl

theorem findNewRun_spec (latest : Nat → Option RunH) (prev : Option Nat) :
    ∀ (fuel now deadline : Nat) (res : Option (Nat × Nat)) (tEnd : Nat),
    findNewRun latest prev fuel now deadline = (res, tEnd) →
    tEnd ≤ max now (deadline + POLL_INTERVAL_MS) ∧
    ∀ id t, res = some (id, t) →
      t = tEnd ∧ ∃ run : RunH, latest t = some run ∧ run.id = id ∧ some id ≠ prev := by
  intro fuel
  induction fuel with
  | zero =>
    intro now deadline res tEnd heq
    injection heq with h1 h2
    subst h1
    subst h2
    refine ⟨le_max_left _ _, ?_⟩
    intro id t ht
    cases ht
  | succ fuel ih =>
    intro now deadline res tEnd heq
    rw [findNewRun_succ] at heq
    by_cases hnd : now < deadline
    · rw [if_pos hnd] at heq
      rcases hl : latest (now + POLL_INTERVAL_MS) with - | run
      · rw [hl] at heq
        obtain ⟨hb, hs⟩ := ih (now + POLL_INTERVAL_MS) deadline res tEnd heq
        refine ⟨le_trans hb ?_, hs⟩
        rw [Nat.max_le]
        exact ⟨le_trans (by omega) (le_max_right _ _), le_max_right _ _⟩
      · rw [hl] at heq
        have heq2 : (if some run.id ≠ prev then
              ((some (run.id, now + POLL_INTERVAL_MS), now + POLL_INTERVAL_MS) :
                Option (Nat × Nat) × Nat)
            else findNewRun latest prev fuel (now + POLL_INTERVAL_MS) deadline)
            = (res, tEnd) := heq
        by_cases hid : some run.id ≠ prev
        · rw [if_pos hid] at heq2
          injection heq2 with h1 h2
          subst h1
          subst h2
          refine ⟨le_trans (by omega) (le_max_right _ _), ?_⟩
          intro id t ht
          injection ht with ht
          injection ht with ht1 ht2
          subst ht1
          subst ht2
          exact ⟨rfl, run, hl, rfl, hid⟩
        · rw [if_neg hid] at heq2
          obtain ⟨hb, hs⟩ := ih (now + POLL_INTERVAL_MS) deadline res tEnd heq2
          refine ⟨le_trans hb ?_, hs⟩
          rw [Nat.max_le]
          exact ⟨le_trans (by omega) (le_max_right _ _), le_max_right _ _⟩
    · rw [if_neg hnd] at heq
      injection heq with h1 h2
      subst h1
      subst h2
      refine ⟨le_max_left _ _, ?_⟩
      intro id t ht
      cases ht

theorem awaitRunDone_spec (view : Nat → Nat → Option (String × String)) (runId : Nat) :
    ∀ (fuel now deadline : Nat) (c : String) (tEnd : Nat),
    awaitRunDone view runId fuel now deadline = (c, tEnd) →
    tEnd ≤ max now (deadline + POLL_INTERVAL_MS) ∧
    (c = "timeout" ∨ ∃ t, view t runId = some ("completed", c)) := by
  intro fuel
  induction fuel with
  | zero =>
    intro now deadline c tEnd heq
    injection heq with h1 h2
    subst h1
    subst h2
    exact ⟨le_max_left _ _, Or.inl rfl⟩
  | succ fuel ih =>
    intro now deadline c tEnd heq
    rw [awaitRunDone_succ] at heq
    by_cases hnd : now < deadline
    · rw [if_pos hnd] at heq
      rcases hl : view (now + POLL_INTERVAL_MS) runId with - | sc
      · rw [hl] at heq
        obtain ⟨hb, hs⟩ := ih (now + POLL_INTERVAL_MS) deadline c tEnd heq
        refine ⟨le_trans hb ?_, hs⟩
        rw [Nat.max_le]
        exact ⟨le_trans (by omega) (le_max_right _ _), le_max_right _ _⟩
      · obtain ⟨s1, s2⟩ := sc
        rw [hl] at heq
        have heq2 : (if s1 = "completed" then ((s2, now + POLL_INTERVAL_MS) : String × Nat)
            else awaitRunDone view runId fuel (now + POLL_INTERVAL_MS) deadline)
            = (c, tEnd) := heq
        by_cases hcomp : s1 = "completed"
        · rw [if_pos hcomp] at heq2
          subst hcomp
          injection heq2 with h1 h2
          subst h1
          subst h2
          exact ⟨le_trans (by omega) (le_max_right _ _),
            Or.inr ⟨now + POLL_INTERVAL_MS, hl⟩⟩
        · rw [if_neg hcomp] at heq2
          obtain ⟨hb, hs⟩ := ih (now + POLL_INTERVAL_MS) deadline c tEnd heq2
          refine ⟨le_trans hb ?_, hs⟩
          rw [Nat.max_le]
          exact ⟨le_trans (by omega) (le_max_right _ _), le_max_right _ _⟩
    · rw [if_neg hnd] at heq
      injection heq with h1 h2
      subst h1
      subst h2
      exact ⟨le_max_left _ _, Or.inl rfl⟩


theorem findNewRun_fuel (latest : Nat → Option RunH) (prev : Option Nat) :
    ∀ (fuel now deadline : Nat), deadline ≤ now + fuel * POLL_INTERVAL_MS →
    findNewRun latest prev (fuel + 1) now deadline
      = findNewRun latest prev (fuel + 2) now deadline := by
  intro fuel
  induction fuel with
  | zero =>
    intro now deadline hd
    rw [findNewRun_succ, findNewRun_succ]
    rw [if_neg (by omega), if_neg (by omega)]
  | succ fuel ih =>
    intro now deadline hd
    rw [findNewRun_succ latest prev (fuel + 1), findNewRun_succ latest prev (fuel + 2)]
    by_cases hnd : now < deadline
    · rw [if_pos hnd, if_pos hnd]
      rcases hl : latest (now + POLL_INTERVAL_MS) with - | run
      · exact ih (now + POLL_INTERVAL_MS) deadline (by
          have := hd
          simp only [Nat.succ_mul] at this
          omega)
      · show (if some run.id ≠ prev then
              ((some (run.id, now + POLL_INTERVAL_MS), now + POLL_INTERVAL_MS) :
                Option (Nat × Nat) × Nat)
            else findNewRun latest prev (fuel + 1) (now + POLL_INTERVAL_MS) deadline)
          = (if some run.id ≠ prev then
              ((some (run.id, now + POLL_INTERVAL_MS), now + POLL_INTERVAL_MS) :
                Option (Nat × Nat) × Nat)
            else findNewRun latest prev (fuel + 2) (now + POLL_INTERVAL_MS) deadline)
        by_cases hid : some run.id ≠ prev
        · rw [if_pos hid, if_pos hid]
        · rw [if_neg hid, if_neg hid]
          exact ih (now + POLL_INTERVAL_MS) deadline (by
            have := hd
            simp only [Nat.succ_mul] at this
            omega)
    · rw [if_neg hnd, if_neg hnd]

theorem awaitRunDone_fuel (view : Nat → Nat → Option (String × String)) (runId : Nat) :
    ∀ (fuel now deadline : Nat), deadline ≤ now + fuel * POLL_INTERVAL_MS →
    awaitRunDone view runId (fuel + 1) now deadline
      = awaitRunDone view runId (fuel + 2) now deadline := by
  intro fuel
  induction fuel with
  | zero =>
    intro now deadline hd
    rw [awaitRunDone_succ, awaitRunDone_succ]
    rw [if_neg (by omega), if_neg (by omega)]
  | succ fuel ih =>
    intro now deadline hd
    rw [awaitRunDone_succ view runId (fuel + 1), awaitRunDone_succ view runId (fuel + 2)]
    by_cases hnd : now < deadline
    · rw [if_pos hnd, if_pos hnd]
      rcases hl : view (now + POLL_INTERVAL_MS) runId with - | sc
      · exact ih (now + POLL_INTERVAL_MS) deadline (by
          have := hd
          simp only [Nat.succ_mul] at this
          omega)
      · show (if sc.1 = "completed" then ((sc.2, now + POLL_INTERVAL_MS) : String × Nat)
            else awaitRunDone view runId (fuel + 1) (now + POLL_INTERVAL_MS) deadline)
          = (if sc.1 = "completed" then ((sc.2, now + POLL_INTERVAL_MS) : String × Nat)
            else awaitRunDone view runId (fuel + 2) (now + POLL_INTERVAL_MS) deadline)
        by_cases hcomp : sc.1 = "completed"
        · rw [if_pos hcomp, if_pos hcomp]
        · rw [if_neg hcomp, if_neg hcomp]
          exact ih (now + POLL_INTERVAL_MS) deadline (by
            have := hd
            simp only [Nat.succ_mul] at this
            omega)
    · rw [if_neg hnd, if_neg hnd]

theorem pollFuel_suffices (start : Nat) :
    start + POLL_TIMEOUT_MS ≤ start + (pollFuel - 1) * POLL_INTERVAL_MS := by
  have h : POLL_TIMEOUT_MS ≤ (pollFuel - 1) * POLL_INTERVAL_MS := by decide
  omega


/-- C10: waitForNewRunToComplete never waits indefinitely — its final
clock stays within its two deadline-bounded polling windows — and
whenever the deadline elapses before both awaited conditions hold (a run
whose identity differs from previousRunId has appeared, and that run has
reached completed status), the call returns the timeout outcome: every
non-timeout result exhibits a new run observed with a different identity
and a completed view answering with that conclusion. -/
theorem waitForNewRunToComplete_deadline (latest : Nat → Option RunH)
    (view : Nat → Nat → Option (String × String)) (previousRunId : Option Nat)
    (start : Nat) :
    (waitForNewRunToComplete latest view previousRunId start).2
        ≤ start + 2 * POLL_TIMEOUT_MS + 2 * POLL_INTERVAL_MS ∧
    ((waitForNewRunToComplete latest view previousRunId start).1 = "timeout" ∨
      ∃ (run : RunH) (tNew tDone : Nat),
        latest tNew = some run ∧ some run.id ≠ previousRunId ∧
        view tDone run.id
          = some ("completed",
              (waitForNewRunToComplete latest view previousRunId start).1)) := by
  rcases hf : findNewRun latest previousRunId pollFuel start (start + POLL_TIMEOUT_MS)
    with ⟨res, tEnd⟩
  obtain ⟨hb1, hfacts⟩ := findNewRun_spec latest previousRunId pollFuel start
    (start + POLL_TIMEOUT_MS) res tEnd hf
  cases res with
  | none =>
    have hval : waitForNewRunToComplete latest view previousRunId start
        = ("timeout", tEnd) := by
      unfold waitForNewRunToComplete
      rw [hf]
    rw [hval]
    refine ⟨?_, Or.inl rfl⟩
    rw [Nat.max_eq_right (by omega)] at hb1
    show tEnd ≤ _
    omega
  | some p =>
    obtain ⟨newId, tFound⟩ := p
    obtain ⟨hteq, run, hrun, hrid, hrneq⟩ := hfacts newId tFound rfl
    subst hteq
    have hval : waitForNewRunToComplete latest view previousRunId start
        = awaitRunDone view newId pollFuel tFound (tFound + POLL_TIMEOUT_MS) := by
      unfold waitForNewRunToComplete
      rw [hf]
    rcases ha : awaitRunDone view newId pollFuel tFound (tFound + POLL_TIMEOUT_MS)
      with ⟨c, tEnd2⟩
    obtain ⟨hb2, hres⟩ := awaitRunDone_spec view newId pollFuel tFound
      (tFound + POLL_TIMEOUT_MS) c tEnd2 ha
    rw [hval, ha]
    constructor
    · rw [Nat.max_eq_right (by omega)] at hb2
      rw [Nat.max_eq_right (by omega)] at hb1
      show tEnd2 ≤ _
      omega
    · rcases hres with hres | ⟨t, hview⟩
      · exact Or.inl hres
      · refine Or.inr ⟨run, tFound, t, hrun, ?_, ?_⟩
        · rw [hrid]
          exact hrneq
        · rw [hrid]
          exact hview


/-! ### Claim theorems: diff normalizer -/

theorem roundToDouble_eq_of_lt {n : Nat} (h : n < 2 ^ 53) : roundToDouble n = n := by
  unfold roundToDouble
  rw [if_pos h]

/-- C5 counterexample: parseInt works at double precision, so the header
`@@ -9007199254740993,1 +1,1 @@` — a line matching the hunk-header
pattern whose oldStart is 2^53 + 1 — is rewritten by fixHunkHeader with
oldStart 9007199254740992 (the nearest binary64, ties to even): the
claimed verbatim preservation of oldStart fails on this line. -/
theorem normalizePatch_start_rounded_cex :
    matchHunkHeader ("@@ -9007199254740993,1 +1,1 @@".data)
      = some (9007199254740993, 1, []) ∧
    jsParseIntDigits ("9007199254740993".data) = 9007199254740992 ∧
    jsFixHeadLine ("@@ -9007199254740993,1 +1,1 @@".data) ["-a".data, "+b".data]
      = ("@@ -9007199254740992,1 +1,1 @@".data) ∧
    (9007199254740992 : Nat) ≠ 9007199254740993 :=
  ⟨by decide, by decide, by decide, by decide⟩

/-- C5 amended: every input line that matches the hunk-header pattern
whose oldStart and newStart are below 2^53 — the range in which
JavaScript parseInt is exact (roundToDouble is the identity there) and
String prints the full decimal expansion — is rewritten by the
normalizer with oldCount and newCount recomputed from the body that
follows it — counting until the next hunk header, a file-header line,
or end of input, a "-" line incrementing oldCount, a "+" line
incrementing newCount, any other line incrementing both — while
oldStart, newStart and the trailing text are preserved verbatim; starts
of 2^53 and above are instead rounded to the nearest double.  In
particular `@@ -1,1 +1,1 @@` followed by two removed and two added
lines is rewritten to `@@ -1,2 +1,2 @@` with the body unchanged. -/
theorem normalizePatch_rewrites_hunk_headers :
    (∀ (s : String) (i : Nat) (l : JStr) (os ns : Nat) (tr : JStr),
        (patchLines s).get? i = some l →
        matchHunkHeader l = some (os, ns, tr) →
        os < 2 ^ 53 → ns < 2 ^ 53 →
        roundToDouble os = os ∧ roundToDouble ns = ns ∧
        (normLoop (patchLines s) [] none).get? i
          = some (mkHeader os (hunkCounts ((patchLines s).drop (i + 1))).1
              ns (hunkCounts ((patchLines s).drop (i + 1))).2 tr)) ∧
    normalizePatch "@@ -1,1 +1,1 @@\n-a\n-b\n+c\n+d\n"
      = "@@ -1,2 +1,2 @@\n-a\n-b\n+c\n+d\n" := by
  constructor
  · intro s i l os ns tr hget hmatch hos hns
    refine ⟨roundToDouble_eq_of_lt hos, roundToDouble_eq_of_lt hns, ?_⟩
    rw [normLoop_eq_normFun, normFun_get? _ i l hget]
    unfold fixHeadLine
    rw [hmatch]
  · rfl

/-- Witness for C5: the concrete four-line diff rewrite obtained from the
theorem at index 0, whose starts are far below 2^53. -/
theorem normalizePatch_rewrites_hunk_headers_w :
    (normLoop (patchLines "@@ -1,1 +1,1 @@\n-a\n-b\n+c\n+d\n") [] none).get? 0
      = some (mkHeader 1
          (hunkCounts ((patchLines "@@ -1,1 +1,1 @@\n-a\n-b\n+c\n+d\n").drop 1)).1 1
          (hunkCounts ((patchLines "@@ -1,1 +1,1 @@\n-a\n-b\n+c\n+d\n").drop 1)).2 []) :=
  (normalizePatch_rewrites_hunk_headers.1 "@@ -1,1 +1,1 @@\n-a\n-b\n+c\n+d\n" 0
    ("@@ -1,1 +1,1 @@".data) 1 1 [] (by decide) (by decide)
    (by decide) (by decide)).2.2

/-- C7: normalization is total on strings — normalizePatch is a function
defined for every input — and a line that does not match the hunk-header
pattern, such as the malformed `@@ garbage @@`, is passed through to the
output unmodified with no recount attempted. -/
theorem normalizePatch_passthrough_malformed :
    matchHunkHeader ("@@ garbage @@".data) = none ∧
    (∀ (s : String) (i : Nat) (l : JStr),
        (patchLines s).get? i = some l →
        matchHunkHeader l = none →
        (normLoop (patchLines s) [] none).get? i = some l) ∧
    normalizePatch "@@ garbage @@\ncontext\n" = "@@ garbage @@\ncontext\n" := by
  refine ⟨by decide, ?_, by rfl⟩
  intro s i l hget hmatch
  rw [normLoop_eq_normFun, normFun_get? _ i l hget]
  unfold fixHeadLine
  rw [hmatch]

/-- Witness for C7: the malformed header line of the concrete input is
kept unchanged at index 0. -/
theorem normalizePatch_passthrough_malformed_w :
    (normLoop (patchLines "@@ garbage @@\ncontext\n") [] none).get? 0
      = some ("@@ garbage @@".data) :=
  normalizePatch_passthrough_malformed.2.1 "@@ garbage @@\ncontext\n" 0
    ("@@ garbage @@".data) (by decide) (by decide)

end CiDoctor
